import Mathlib

/-!
# Credential store of hoverfly (`authentication/backends/storage_backend.go`)

A shallow embedding of the `User` record, its JSON codec (`User.Encode`,
`DecodeUser`) and the three operations of `AuthBackend` (`AddUser`, `GetUser`,
`GetAllUsers`), followed by the properties of the specification.

Conventions of the embedding:

* a Go `string` or `[]byte` is the list of its byte values (`Bytes`);
* a Go result pair `(v, err)` is a Lean pair whose second component is
  `Option Error` (`none` is the `nil` error); a `*User` is an `Option User`
  (`none` is the `nil` pointer);
* the collaborators the backend is handed (the cache, the password hasher, the
  identifier generator) are parameters;
* loops of the Go libraries that advance by a computed number of bytes run on a
  fuel argument that bounds their number of iterations (the length of the
  input; for the recursive scanner twice the length plus one). The section
  "The decoder never runs out of fuel" shows that the bound is never reached.
-/

namespace Hoverfly

/-- A Go `string` or `[]byte`: the sequence of its bytes, each a value in `0..255`. -/
abbrev Bytes := List Nat

/-- The `error` values that can reach the backend. -/
inductive Error where
  /-- `io.EOF`: the decoder found no JSON value in its input. -/
  | eof
  /-- `io.ErrUnexpectedEOF`: the input ends inside a JSON value. -/
  | unexpectedEOF
  /-- `*json.SyntaxError`: the input is not JSON. -/
  | invalidJSON
  /-- `*json.UnmarshalTypeError`: a JSON value does not fit its Go target. -/
  | unmarshalType
  /-- The decoder's internal consistency failure (never produced on scanned input). -/
  | phase
  /-- An error reported by the cache collaborator. -/
  | cache (code : Nat)
  /-- An error reported by the password hasher. -/
  | hashing (code : Nat)
deriving DecidableEq, Repr

/-- The record `type User struct` with its four fields. -/
structure User where
  UUID : Bytes
  Username : Bytes
  Password : Bytes
  IsAdmin : Bool
deriving DecidableEq, Repr

/-- The zero value of `User` (what `make([]User, n)` fills a slice with). -/
def User.zero : User := ⟨[], [], [], false⟩

/-! ## `unicode/utf8` -/

/-- The rune `utf8.RuneError` (U+FFFD). -/
def RuneError : Nat := 0xFFFD

/-- The function `utf8.DecodeRune`: the first rune of `p` and its width in bytes;
`(RuneError, 0)` on empty input and `(RuneError, 1)` on an invalid encoding. The
branches on the first byte are the rows of the table `first`, with the accept
range of the second byte each row selects. -/
def DecodeRune : Bytes → Nat × Nat
  | [] => (RuneError, 0)
  | p0 :: rest =>
    if p0 < 0x80 then (p0, 1)
    else if p0 < 0xC2 then (RuneError, 1)
    else if p0 < 0xE0 then
      match rest with
      | b1 :: _ =>
        if 0x80 ≤ b1 ∧ b1 ≤ 0xBF then ((p0 % 0x20) * 0x40 + b1 % 0x40, 2)
        else (RuneError, 1)
      | _ => (RuneError, 1)
    else if p0 < 0xF0 then
      let lo := if p0 = 0xE0 then 0xA0 else 0x80
      let hi := if p0 = 0xED then 0x9F else 0xBF
      match rest with
      | b1 :: b2 :: _ =>
        if lo ≤ b1 ∧ b1 ≤ hi then
          if 0x80 ≤ b2 ∧ b2 ≤ 0xBF then
            ((p0 % 0x10) * 0x1000 + (b1 % 0x40) * 0x40 + b2 % 0x40, 3)
          else (RuneError, 1)
        else (RuneError, 1)
      | _ => (RuneError, 1)
    else if p0 < 0xF5 then
      let lo := if p0 = 0xF0 then 0x90 else 0x80
      let hi := if p0 = 0xF4 then 0x8F else 0xBF
      match rest with
      | b1 :: b2 :: b3 :: _ =>
        if lo ≤ b1 ∧ b1 ≤ hi then
          if 0x80 ≤ b2 ∧ b2 ≤ 0xBF then
            if 0x80 ≤ b3 ∧ b3 ≤ 0xBF then
              ((p0 % 0x08) * 0x40000 + (b1 % 0x40) * 0x1000 + (b2 % 0x40) * 0x40 + b3 % 0x40, 4)
            else (RuneError, 1)
          else (RuneError, 1)
        else (RuneError, 1)
      | _ => (RuneError, 1)
    else (RuneError, 1)

/-- The function `utf8.EncodeRune` (`utf8.AppendRune`): the UTF-8 bytes of a rune;
surrogates and values above U+10FFFF are written as U+FFFD. -/
def EncodeRune (r : Nat) : Bytes :=
  if r ≤ 0x7F then [r]
  else if r ≤ 0x7FF then [0xC0 + r / 0x40, 0x80 + r % 0x40]
  else if r > 0x10FFFF ∨ (0xD800 ≤ r ∧ r ≤ 0xDFFF) then [0xEF, 0xBF, 0xBD]
  else if r ≤ 0xFFFF then [0xE0 + r / 0x1000, 0x80 + (r / 0x40) % 0x40, 0x80 + r % 0x40]
  else [0xF0 + r / 0x40000, 0x80 + (r / 0x1000) % 0x40, 0x80 + (r / 0x40) % 0x40, 0x80 + r % 0x40]

/-- The loop of `utf8.Valid`: every rune of the input decodes without error. -/
def utf8ValidLoop : Nat → Bytes → Bool
  | _, [] => true
  | 0, _ :: _ => false
  | fuel + 1, b :: rest =>
    if b < 0x80 then utf8ValidLoop fuel rest
    else
      let d := DecodeRune (b :: rest)
      if d.1 = RuneError ∧ d.2 = 1 then false
      else utf8ValidLoop fuel ((b :: rest).drop d.2)

/-- The function `utf8.Valid`. -/
def utf8Valid (s : Bytes) : Bool := utf8ValidLoop s.length s

/-! ## `encoding/json`, encoding side -/

/-- The digit table `hex = "0123456789abcdef"`. -/
def hex (n : Nat) : Nat := if n < 10 then 0x30 + n else 0x61 + (n - 10)

/-- The table `htmlSafeSet` on ASCII bytes: printable, and none of
`"`, `&`, `<`, `>`, `\`. -/
def htmlSafeSet (b : Nat) : Bool :=
  0x20 ≤ b ∧ b < 0x80 ∧ b ≠ 0x22 ∧ b ≠ 0x26 ∧ b ≠ 0x3C ∧ b ≠ 0x3E ∧ b ≠ 0x5C

/-- The `switch b` of `appendString` for an ASCII byte outside `htmlSafeSet`.
(Releases of Go before 1.22 write `\u0008` and `\u000c` where later ones write
`\b` and `\f`; the decoder reads both forms as the same byte.) -/
def escapeByte (b : Nat) : Bytes :=
  if b = 0x5C ∨ b = 0x22 then [0x5C, b]
  else if b = 0x08 then [0x5C, 0x62]
  else if b = 0x0C then [0x5C, 0x66]
  else if b = 0x0A then [0x5C, 0x6E]
  else if b = 0x0D then [0x5C, 0x72]
  else if b = 0x09 then [0x5C, 0x74]
  else [0x5C, 0x75, 0x30, 0x30, hex (b / 16), hex (b % 16)]

/-- The loop of `appendString` (with `escapeHTML` set, as `json.Encoder` does by
default): the escaped contents of a JSON string literal. -/
def appendStringLoop : Nat → Bytes → Bytes
  | _, [] => []
  | 0, _ :: _ => []
  | fuel + 1, b :: rest =>
    if b < 0x80 then
      (if htmlSafeSet b then [b] else escapeByte b) ++ appendStringLoop fuel rest
    else
      let d := DecodeRune (b :: rest)
      if d.1 = RuneError ∧ d.2 = 1 then
        [0x5C, 0x75, 0x66, 0x66, 0x66, 0x64] ++ appendStringLoop fuel rest
      else if d.1 = 0x2028 ∨ d.1 = 0x2029 then
        [0x5C, 0x75, 0x32, 0x30, 0x32, hex (d.1 % 16)]
          ++ appendStringLoop fuel ((b :: rest).drop d.2)
      else
        (b :: rest).take d.2 ++ appendStringLoop fuel ((b :: rest).drop d.2)

/-- The function `appendString`: a JSON string literal for `src`. -/
def appendString (src : Bytes) : Bytes :=
  [0x22] ++ appendStringLoop src.length src ++ [0x22]

/-- The struct tags of `User`, in field order. -/
def nameUUID : Bytes := [0x75, 0x75, 0x69, 0x64]
/-- The tag `username`. -/
def nameUsername : Bytes := [0x75, 0x73, 0x65, 0x72, 0x6E, 0x61, 0x6D, 0x65]
/-- The tag `password`. -/
def namePassword : Bytes := [0x70, 0x61, 0x73, 0x73, 0x77, 0x6F, 0x72, 0x64]
/-- The tag `is_admin`. -/
def nameIsAdmin : Bytes := [0x69, 0x73, 0x5F, 0x61, 0x64, 0x6D, 0x69, 0x6E]

/-- The bool encoder: the literal `true` or `false`. -/
def appendBool (b : Bool) : Bytes :=
  if b then [0x74, 0x72, 0x75, 0x65] else [0x66, 0x61, 0x6C, 0x73, 0x65]

/-- The struct encoder of `encoding/json` on a `User`: the four fields in
declaration order, each as `"tag":value`. -/
def marshalUser (u : User) : Bytes :=
  [0x7B] ++ ([0x22] ++ nameUUID ++ [0x22, 0x3A]) ++ appendString u.UUID
    ++ [0x2C] ++ ([0x22] ++ nameUsername ++ [0x22, 0x3A]) ++ appendString u.Username
    ++ [0x2C] ++ ([0x22] ++ namePassword ++ [0x22, 0x3A]) ++ appendString u.Password
    ++ [0x2C] ++ ([0x22] ++ nameIsAdmin ++ [0x22, 0x3A]) ++ appendBool u.IsAdmin
    ++ [0x7D]

/-- The call `json.NewEncoder(buf).Encode(u)` on a `*User`: the JSON text followed
by a newline, written to the buffer; a struct of strings and a bool has no
value the encoder rejects, so the error is `nil`. -/
def Encoder_Encode (u : User) : Bytes × Option Error :=
  (marshalUser u ++ [0x0A], none)

/-- The method `User.Encode`. -/
def User.Encode (u : User) : Bytes × Option Error :=
  match Encoder_Encode u with
  | (_, some err) => ([], some err)
  | (buf, none) => (buf, none)

/-! ## `encoding/json`, decoding side: the scanner -/

/-- The scanner's `isSpace`. -/
def isSpace (c : Nat) : Bool := c = 0x20 ∨ c = 0x09 ∨ c = 0x0D ∨ c = 0x0A

/-- Skipping of insignificant white space (`scanSkipSpace`). -/
def skipSpace : Bytes → Bytes
  | [] => []
  | c :: r => if isSpace c then skipSpace r else c :: r

/-- A hexadecimal digit, as the states `stateInStringEscU...` accept it. -/
def isHexDigit (c : Nat) : Bool :=
  (0x30 ≤ c ∧ c ≤ 0x39) ∨ (0x61 ≤ c ∧ c ≤ 0x66) ∨ (0x41 ≤ c ∧ c ≤ 0x46)

/-- The scanner states inside a string literal: `stateInString`,
`stateInStringEsc`, and `stateInStringEscU`, `...EscU1`, `...EscU12`,
`...EscU123` (here `escU k` with `k` hexadecimal digits still expected). -/
inductive StrState where
  | inString
  | esc
  | escU (k : Nat)
deriving DecidableEq, Repr

/-- Put a scanned byte in front of the raw contents collected so far. -/
def consRaw (c : Nat) : Except Error (Bytes × Bytes) → Except Error (Bytes × Bytes)
  | .error e => .error e
  | .ok (raw, rest) => .ok (c :: raw, rest)

/-- The scanner on a string literal, from the byte after the opening quote: the
raw bytes between the quotes and the input after the closing quote. -/
def scanString : StrState → Bytes → Except Error (Bytes × Bytes)
  | _, [] => .error .unexpectedEOF
  | .inString, c :: r =>
    if c = 0x22 then .ok ([], r)
    else if c = 0x5C then consRaw c (scanString .esc r)
    else if c < 0x20 then .error .invalidJSON
    else consRaw c (scanString .inString r)
  | .esc, c :: r =>
    if c = 0x62 ∨ c = 0x66 ∨ c = 0x6E ∨ c = 0x72 ∨ c = 0x74 ∨ c = 0x5C ∨ c = 0x2F ∨ c = 0x22 then
      consRaw c (scanString .inString r)
    else if c = 0x75 then consRaw c (scanString (.escU 4) r)
    else .error .invalidJSON
  | .escU k, c :: r =>
    if isHexDigit c then
      consRaw c (scanString (if k ≤ 1 then .inString else .escU (k - 1)) r)
    else .error .invalidJSON

/-- The scanner states inside a number: `stateNeg`, `state0`, `state1`,
`stateDot`, `stateDot0`, `stateE`, `stateESign`, `stateE0`. -/
inductive NumState where
  | neg | zero | one | dot | dot0 | e | eSign | e0
deriving DecidableEq, Repr

/-- A decimal digit. -/
def isDigit (c : Nat) : Bool := 0x30 ≤ c ∧ c ≤ 0x39

/-- The scanner on a number, from the byte after its first one: the input from
the first byte that is not part of the number. At the end of the input a number
is complete in the states `state0`, `state1`, `stateDot0` and `stateE0`. -/
def scanNumber : NumState → Bytes → Except Error Bytes
  | st, [] =>
    if st = .zero ∨ st = .one ∨ st = .dot0 ∨ st = .e0 then .ok [] else .error .unexpectedEOF
  | .neg, c :: r =>
    if c = 0x30 then scanNumber .zero r
    else if 0x31 ≤ c ∧ c ≤ 0x39 then scanNumber .one r
    else .error .invalidJSON
  | .one, c :: r =>
    if isDigit c then scanNumber .one r
    else if c = 0x2E then scanNumber .dot r
    else if c = 0x65 ∨ c = 0x45 then scanNumber .e r
    else .ok (c :: r)
  | .zero, c :: r =>
    if c = 0x2E then scanNumber .dot r
    else if c = 0x65 ∨ c = 0x45 then scanNumber .e r
    else .ok (c :: r)
  | .dot, c :: r =>
    if isDigit c then scanNumber .dot0 r else .error .invalidJSON
  | .dot0, c :: r =>
    if isDigit c then scanNumber .dot0 r
    else if c = 0x65 ∨ c = 0x45 then scanNumber .e r
    else .ok (c :: r)
  | .e, c :: r =>
    if c = 0x2B ∨ c = 0x2D then scanNumber .eSign r
    else if isDigit c then scanNumber .e0 r
    else .error .invalidJSON
  | .eSign, c :: r =>
    if isDigit c then scanNumber .e0 r else .error .invalidJSON
  | .e0, c :: r =>
    if isDigit c then scanNumber .e0 r else .ok (c :: r)

/-- The scanner on the rest of a literal (`rue`, `alse`, `ull`), one state per
expected byte: the input after the literal. -/
def scanLiteral : Bytes → Bytes → Except Error Bytes
  | [], s => .ok s
  | _ :: _, [] => .error .unexpectedEOF
  | x :: xs, c :: r => if c = x then scanLiteral xs r else .error .invalidJSON

/-! ## `encoding/json`, decoding side: string literals -/

/-- The value of a hexadecimal digit, as `getu4` computes it. -/
def hexVal (c : Nat) : Nat :=
  if 0x30 ≤ c ∧ c ≤ 0x39 then c - 0x30
  else if 0x61 ≤ c ∧ c ≤ 0x66 then c - 0x61 + 10
  else c - 0x41 + 10

/-- The function `getu4`: the rune of a `\uXXXX` escape at the head of the
input, `none` (Go: `-1`) when there is none. -/
def getu4 : Bytes → Option Nat
  | c0 :: c1 :: h1 :: h2 :: h3 :: h4 :: _ =>
    if c0 = 0x5C ∧ c1 = 0x75 ∧ isHexDigit h1 ∧ isHexDigit h2 ∧ isHexDigit h3 ∧ isHexDigit h4 then
      some (((hexVal h1 * 16 + hexVal h2) * 16 + hexVal h3) * 16 + hexVal h4)
    else none
  | _ => none

/-- The function `utf16.IsSurrogate`. -/
def utf16IsSurrogate (r : Nat) : Bool := 0xD800 ≤ r ∧ r < 0xE000

/-- The function `utf16.DecodeRune` on a first rune and an optional second
one: the rune of a valid surrogate pair, U+FFFD otherwise. -/
def utf16DecodeRune (r1 : Nat) (r2 : Option Nat) : Nat :=
  match r2 with
  | some r2 =>
    if 0xD800 ≤ r1 ∧ r1 < 0xDC00 ∧ 0xDC00 ≤ r2 ∧ r2 < 0xE000 then
      (r1 - 0xD800) * 0x400 + (r2 - 0xDC00) + 0x10000
    else RuneError
  | none => RuneError

/-- Put the bytes `bs` in front of an unquoted remainder. -/
def prepend (bs : Bytes) : Option Bytes → Option Bytes
  | none => none
  | some t => some (bs ++ t)

/-- The loop of `unquoteBytes` on the raw contents of a string literal: escapes
are replaced by what they stand for and every byte that is not part of a valid
UTF-8 sequence by U+FFFD; `none` (Go: `ok = false`) on an escape or a byte the
scanner does not let through. -/
def unquoteLoop : Nat → Bytes → Option Bytes
  | _, [] => some []
  | 0, _ :: _ => none
  | fuel + 1, c :: r =>
    if c = 0x5C then
      match r with
      | [] => none
      | e :: r1 =>
        if e = 0x22 ∨ e = 0x5C ∨ e = 0x2F ∨ e = 0x27 then prepend [e] (unquoteLoop fuel r1)
        else if e = 0x62 then prepend [0x08] (unquoteLoop fuel r1)
        else if e = 0x66 then prepend [0x0C] (unquoteLoop fuel r1)
        else if e = 0x6E then prepend [0x0A] (unquoteLoop fuel r1)
        else if e = 0x72 then prepend [0x0D] (unquoteLoop fuel r1)
        else if e = 0x74 then prepend [0x09] (unquoteLoop fuel r1)
        else if e = 0x75 then
          match getu4 (c :: r) with
          | none => none
          | some rr =>
            if utf16IsSurrogate rr then
              let rr1 := getu4 (r.drop 5)
              let dec := utf16DecodeRune rr rr1
              if dec ≠ RuneError then
                prepend (EncodeRune dec) (unquoteLoop fuel (r.drop 11))
              else
                prepend (EncodeRune RuneError) (unquoteLoop fuel (r.drop 5))
            else prepend (EncodeRune rr) (unquoteLoop fuel (r.drop 5))
        else none
    else if c = 0x22 ∨ c < 0x20 then none
    else if c < 0x80 then prepend [c] (unquoteLoop fuel r)
    else
      let d := DecodeRune (c :: r)
      prepend (EncodeRune d.1) (unquoteLoop fuel ((c :: r).drop d.2))

/-- The function `unquoteBytes` on the contents between the quotes. -/
def unquoteBytes (raw : Bytes) : Option Bytes := unquoteLoop raw.length raw

/-! ## `encoding/json`, decoding side: values -/

/-- A scanned JSON value, as far as the decoder looks at it. -/
inductive JValue where
  | null
  | bool (b : Bool)
  | str (s : Bytes)
  | num
  | arr (xs : List JValue)
  | obj (ms : List (Bytes × JValue))

/-- The scanner's `maxNestingDepth`. -/
def maxNestingDepth : Nat := 10000

mutual
/-- The scanner and reader on one JSON value (`stateBeginValue` onwards) at
nesting depth `depth`: the value and the input after it. -/
def parseValue : Nat → Nat → Bytes → Except Error (JValue × Bytes)
  | 0, _, _ => .error .phase
  | fuel + 1, depth, s =>
    match skipSpace s with
    | [] => .error .unexpectedEOF
    | c :: r =>
      if c = 0x7B then
        if depth + 1 > maxNestingDepth then .error .invalidJSON
        else
          match skipSpace r with
          | [] => .error .unexpectedEOF
          | c2 :: r2 =>
            if c2 = 0x7D then .ok (.obj [], r2)
            else
              match parseMembers fuel (depth + 1) (c2 :: r2) with
              | .error e => .error e
              | .ok (ms, rest) => .ok (.obj ms, rest)
      else if c = 0x5B then
        if depth + 1 > maxNestingDepth then .error .invalidJSON
        else
          match skipSpace r with
          | [] => .error .unexpectedEOF
          | c2 :: r2 =>
            if c2 = 0x5D then .ok (.arr [], r2)
            else
              match parseElements fuel (depth + 1) (c2 :: r2) with
              | .error e => .error e
              | .ok (xs, rest) => .ok (.arr xs, rest)
      else if c = 0x22 then
        match scanString .inString r with
        | .error e => .error e
        | .ok (raw, rest) =>
          match unquoteBytes raw with
          | none => .error .phase
          | some t => .ok (.str t, rest)
      else if c = 0x2D then
        match scanNumber .neg r with
        | .error e => .error e
        | .ok rest => .ok (.num, rest)
      else if c = 0x30 then
        match scanNumber .zero r with
        | .error e => .error e
        | .ok rest => .ok (.num, rest)
      else if 0x31 ≤ c ∧ c ≤ 0x39 then
        match scanNumber .one r with
        | .error e => .error e
        | .ok rest => .ok (.num, rest)
      else if c = 0x74 then
        match scanLiteral [0x72, 0x75, 0x65] r with
        | .error e => .error e
        | .ok rest => .ok (.bool true, rest)
      else if c = 0x66 then
        match scanLiteral [0x61, 0x6C, 0x73, 0x65] r with
        | .error e => .error e
        | .ok rest => .ok (.bool false, rest)
      else if c = 0x6E then
        match scanLiteral [0x75, 0x6C, 0x6C] r with
        | .error e => .error e
        | .ok rest => .ok (.null, rest)
      else .error .invalidJSON
/-- The members of an object from the position of a key (`stateBeginString`)
up to the closing brace. -/
def parseMembers : Nat → Nat → Bytes → Except Error (List (Bytes × JValue) × Bytes)
  | 0, _, _ => .error .phase
  | fuel + 1, depth, s =>
    match skipSpace s with
    | [] => .error .unexpectedEOF
    | c :: r =>
      if c = 0x22 then
        match scanString .inString r with
        | .error e => .error e
        | .ok (raw, afterKey) =>
          match unquoteBytes raw with
          | none => .error .phase
          | some key =>
            match skipSpace afterKey with
            | [] => .error .unexpectedEOF
            | c1 :: r1 =>
              if c1 = 0x3A then
                match parseValue fuel depth r1 with
                | .error e => .error e
                | .ok (v, afterValue) =>
                  match skipSpace afterValue with
                  | [] => .error .unexpectedEOF
                  | c2 :: r2 =>
                    if c2 = 0x2C then
                      match parseMembers fuel depth r2 with
                      | .error e => .error e
                      | .ok (ms, rest) => .ok ((key, v) :: ms, rest)
                    else if c2 = 0x7D then .ok ([(key, v)], r2)
                    else .error .invalidJSON
              else .error .invalidJSON
      else .error .invalidJSON
/-- The elements of an array from the position of a value up to the closing
bracket. -/
def parseElements : Nat → Nat → Bytes → Except Error (List JValue × Bytes)
  | 0, _, _ => .error .phase
  | fuel + 1, depth, s =>
    match parseValue fuel depth s with
    | .error e => .error e
    | .ok (v, afterValue) =>
      match skipSpace afterValue with
      | [] => .error .unexpectedEOF
      | c2 :: r2 =>
        if c2 = 0x2C then
          match parseElements fuel depth r2 with
          | .error e => .error e
          | .ok (xs, rest) => .ok (v :: xs, rest)
        else if c2 = 0x5D then .ok ([v], r2)
        else .error .invalidJSON
end

/-- The method `Decoder.readValue` followed by the scan of `decodeState`: the
first JSON value of the input. Input holding only white space is `io.EOF`;
what follows the value is left unread. Every call of the three functions above
is reached after at most two calls per input byte, hence the fuel. -/
def readValue (data : Bytes) : Except Error JValue :=
  match skipSpace data with
  | [] => .error .eof
  | _ :: _ =>
    match parseValue (2 * data.length + 1) 0 data with
    | .error e => .error e
    | .ok (v, _) => .ok v

/-! ## `encoding/json`, decoding side: storing into a `**User` -/

/-- The function `foldRune` as far as it can reach ASCII: U+017F (long s) and
U+212A (Kelvin sign) are the only runes outside ASCII whose simple-fold orbit
contains an ASCII letter. Every other rune outside ASCII is folded by Go to a
rune outside ASCII, and is left as it is here, which gives the same answer when
the folded key is compared with the folded (ASCII) name of a field. -/
def foldRune (r : Nat) : Nat :=
  if r = 0x17F then 0x53 else if r = 0x212A then 0x4B else r

/-- The loop of `appendFoldedName`. -/
def foldNameLoop : Nat → Bytes → Bytes
  | _, [] => []
  | 0, _ :: _ => []
  | fuel + 1, c :: r =>
    if c < 0x80 then
      (if 0x61 ≤ c ∧ c ≤ 0x7A then c - 0x20 else c) :: foldNameLoop fuel r
    else
      let d := DecodeRune (c :: r)
      EncodeRune (foldRune d.1) ++ foldNameLoop fuel ((c :: r).drop d.2)

/-- The function `foldName`. -/
def foldName (s : Bytes) : Bytes := foldNameLoop s.length s

/-- The fields of `User`. -/
inductive Field where
  | uuid | username | password | isAdmin
deriving DecidableEq, Repr

/-- The JSON name of a field. -/
def Field.name : Field → Bytes
  | .uuid => nameUUID
  | .username => nameUsername
  | .password => namePassword
  | .isAdmin => nameIsAdmin

/-- The fields in declaration order. -/
def allFields : List Field := [.uuid, .username, .password, .isAdmin]

/-- The field lookup of `decodeState.object`: the field whose name is the key,
else the field whose folded name is the folded key. -/
def findField (key : Bytes) : Option Field :=
  match allFields.find? (fun f => f.name = key) with
  | some f => some f
  | none => allFields.find? (fun f => foldName f.name = foldName key)

/-- The state of `decodeState.object` on a `User`: the struct being filled and
`savedError`. -/
structure DecodeState where
  user : User
  savedError : Option Error

/-- The method `decodeState.saveError`: the first error is kept. -/
def DecodeState.saveError (d : DecodeState) (e : Error) : DecodeState :=
  match d.savedError with
  | none => { d with savedError := some e }
  | some _ => d

/-- Storing one member value into a string field (`literalStore` and the
`default` cases of `array` and `object`): a string is stored, `null` leaves the
field as it is, anything else is an `UnmarshalTypeError`. -/
def storeString (set : User → Bytes → User) (d : DecodeState) : JValue → DecodeState
  | .str s => { d with user := set d.user s }
  | .null => d
  | _ => d.saveError .unmarshalType

/-- Storing one member value into a bool field. -/
def storeBool (set : User → Bool → User) (d : DecodeState) : JValue → DecodeState
  | .bool b => { d with user := set d.user b }
  | .null => d
  | _ => d.saveError .unmarshalType

/-- One iteration of the member loop of `decodeState.object`: a key that names
no field is skipped with its value. -/
def storeMember (d : DecodeState) (m : Bytes × JValue) : DecodeState :=
  match findField m.1 with
  | none => d
  | some .uuid => storeString (fun u s => { u with UUID := s }) d m.2
  | some .username => storeString (fun u s => { u with Username := s }) d m.2
  | some .password => storeString (fun u s => { u with Password := s }) d m.2
  | some .isAdmin => storeBool (fun u b => { u with IsAdmin := b }) d m.2

/-- The method `decodeState.unmarshal` into `&u` with `u` a nil `*User`:
`null` leaves the pointer nil; an object allocates a `User` and fills it,
reporting `savedError`; any other value is an `UnmarshalTypeError`. -/
def unmarshal : JValue → Option User × Option Error
  | .null => (none, none)
  | .obj ms =>
    let d := ms.foldl storeMember ⟨User.zero, none⟩
    (some d.user, d.savedError)
  | _ => (some User.zero, some .unmarshalType)

/-- The call `dec.Decode(&u)`: the pointer afterwards and the error. -/
def Decoder_Decode (data : Bytes) : Option User × Option Error :=
  match readValue data with
  | .error e => (none, some e)
  | .ok v => unmarshal v

/-- The function `DecodeUser`. -/
def DecodeUser (user : Bytes) : Option User × Option Error :=
  match Decoder_Decode user with
  | (_, some err) => (none, some err)
  | (u, none) => (u, none)

/-! ## The collaborators of `AuthBackend` -/

/-- The three methods of `cache.Cache` the backend calls, over a store of type
`σ`. `Set` gives the store afterwards and its error; `Get` and `GetAllValues`
give the value(s) and the error. -/
structure Cache (σ : Type) where
  Set : σ → Bytes → Bytes → σ × Option Error
  Get : σ → Bytes → Bytes × Option Error
  GetAllValues : σ → List Bytes × Option Error

/-- What one call of `AddUser` draws from outside the repository:
`bcrypt.GenerateFromPassword` (password and cost to hash and error) and the
string `uuid.New()` returns. -/
structure World where
  GenerateFromPassword : Bytes → Nat → Bytes × Option Error
  uuidNew : Bytes

/-- The function `logUserError`: it builds a log entry with `log.WithFields`
and never emits it, so nothing observable happens. -/
def logUserError (_err : Error) (_username : Bytes) : Unit := ()

/-- The result of a call that may end in a run-time panic. -/
inductive Outcome (α : Type) where
  | returned (a : α)
  | panicked
deriving DecidableEq, Repr

/-! ## `AuthBackend` -/

/-- The method `AuthBackend.AddUser`: the user cache afterwards and the error
returned. The error of `GenerateFromPassword` is discarded (`hashedPassword, _ :=`). -/
def AddUser {σ : Type} (userCache : Cache σ) (w : World) (st : σ)
    (username password : Bytes) (admin : Bool) : σ × Option Error :=
  let hashedPassword := (w.GenerateFromPassword password 10).1
  let u : User :=
    { UUID := w.uuidNew, Username := username, Password := hashedPassword, IsAdmin := admin }
  match u.Encode with
  | (_, some err) =>
    let _ := logUserError err username
    (st, some err)
  | (bts, none) => userCache.Set st username bts

/-- The method `AuthBackend.GetUser`, with its named results `(user, err)`. -/
def GetUser {σ : Type} (userCache : Cache σ) (st : σ) (username : Bytes) :
    Option User × Option Error :=
  match userCache.Get st username with
  | (_, some err) =>
    let _ := logUserError err username
    (none, some err)
  | (userBytes, none) =>
    match DecodeUser userBytes with
    | (user, some err) =>
      let _ := logUserError err username
      (user, some err)
    | (user, none) => (user, none)

/-- The method `AuthBackend.GetAllUsers`. The error of `GetAllValues` is
discarded (`values, _ :=`); the body of the `for` loop ends in `return`, so it
runs for the first value only; `*decodedUser` panics on a nil pointer. -/
def GetAllUsers {σ : Type} (userCache : Cache σ) (st : σ) :
    Outcome (List User × Option Error) :=
  let values := (userCache.GetAllValues st).1
  let users := List.replicate values.length User.zero
  match values with
  | [] => .returned (users, none)
  | user :: _ =>
    match DecodeUser user with
    | (none, _) => .panicked
    | (some decodedUser, err) => .returned (users.set 0 decodedUser, err)

/-! ## A key-value cache -/

/-- The entry of a key in an association list. -/
def lookupKey (k : Bytes) : List (Bytes × Bytes) → Option Bytes
  | [] => none
  | (k1, v) :: rest => if k1 = k then some v else lookupKey k rest

/-- Modelled from the spec: the cache collaborator (package `cache`, not part of
the sources at hand) as a key-value map. `Set` overwrites the entry of the key
and succeeds, `Get` fails on a missing key, `GetAllValues` lists the stored
values. The store is the list of its entries, one per key. -/
def mapCache : Cache (List (Bytes × Bytes)) where
  Set := fun st k v => (st.filter (fun kv => kv.1 ≠ k) ++ [(k, v)], none)
  Get := fun st k =>
    match lookupKey k st with
    | some v => (v, none)
    | none => ([], some (.cache 0))
  GetAllValues := fun st => (st.map Prod.snd, none)

/-- A cache whose every call fails with error `e` (an unreachable or closed
store). -/
def failingCache (e : Error) : Cache Unit where
  Set := fun st _ _ => (st, some e)
  Get := fun _ _ => ([], some e)
  GetAllValues := fun _ => ([], some e)

/-- A stand-in for `bcrypt.GenerateFromPassword` with the length check of
`golang.org/x/crypto/bcrypt`: a password of more than 72 bytes is refused with
`ErrPasswordTooLong` and no hash; the hash of a shorter one is represented by
a fixed 60-byte text starting `$2a$10$`. -/
def bcryptStandIn (password : Bytes) (_cost : Nat) : Bytes × Option Error :=
  if password.length > 72 then ([], some (.hashing 0))
  else ([0x24, 0x32, 0x61, 0x24, 0x31, 0x30, 0x24] ++ List.replicate 53 0x2E, none)

/-! ## Definitions used to state the properties -/

/-- The loop behind `coerceUTF8`. -/
def coerceLoop : Nat → Bytes → Bytes
  | _, [] => []
  | 0, _ :: _ => []
  | fuel + 1, b :: rest =>
    if b < 0x80 then b :: coerceLoop fuel rest
    else
      let d := DecodeRune (b :: rest)
      if d.1 = RuneError ∧ d.2 = 1 then [0xEF, 0xBF, 0xBD] ++ coerceLoop fuel rest
      else (b :: rest).take d.2 ++ coerceLoop fuel ((b :: rest).drop d.2)

/-- A string coerced to valid UTF-8 the way `encoding/json` documents it for
string values: every byte that is not part of a valid UTF-8 sequence is
replaced by the encoding of U+FFFD. -/
def coerceUTF8 (s : Bytes) : Bytes := coerceLoop s.length s

/-- The record with its three strings coerced to valid UTF-8. -/
def User.coerce (u : User) : User :=
  ⟨coerceUTF8 u.UUID, coerceUTF8 u.Username, coerceUTF8 u.Password, u.IsAdmin⟩

/-- Put the bytes `cs` in front of the raw contents collected by the scanner. -/
def consRawList (cs : Bytes) : Except Error (Bytes × Bytes) → Except Error (Bytes × Bytes)
  | .error e => .error e
  | .ok (raw, rest) => .ok (cs ++ raw, rest)

/-- A successful multi-byte decode: the input is the encoding of the rune `r`
followed by `tail`. -/
structure IsMulti (s : Bytes) (r : Nat) (tail : Bytes) : Prop where
  split : s = EncodeRune r ++ tail
  len : 2 ≤ (EncodeRune r).length
  high : ∀ x ∈ EncodeRune r, 0x80 ≤ x
  dec : ∀ t, DecodeRune (EncodeRune r ++ t) = (r, (EncodeRune r).length)

/-- A cache behaves as a key-value map: `Set` succeeds and `Get` returns the
last value set under the key. -/
def IsKeyValueMap {σ : Type} (c : Cache σ) : Prop :=
  ∀ st k v, (c.Set st k v).2 = none ∧ c.Get (c.Set st k v).1 k = (v, none)

/-- The arguments of one call of `AddUser` and what the call draws from
outside. -/
structure AddUserCall where
  w : World
  username : Bytes
  password : Bytes
  admin : Bool

/-- The record `AddUser` builds for a call. -/
def AddUserCall.record (c : AddUserCall) : User :=
  { UUID := c.w.uuidNew, Username := c.username,
    Password := (c.w.GenerateFromPassword c.password 10).1, IsAdmin := c.admin }

/-- The store of the key-value cache after a sequence of `AddUser` calls. -/
def addUsers (calls : List AddUserCall) (st : List (Bytes × Bytes)) : List (Bytes × Bytes) :=
  calls.foldl (fun st c => (AddUser mapCache c.w st c.username c.password c.admin).1) st

/-- A world with the stand-in hasher and the given fresh identifier. -/
def worldOf (uuid : Bytes) : World := ⟨bcryptStandIn, uuid⟩

/-- The user name `alice`. -/
def alice : Bytes := [0x61, 0x6C, 0x69, 0x63, 0x65]

/-- The password `secret`. -/
def secret : Bytes := [0x73, 0x65, 0x63, 0x72, 0x65, 0x74]

/-- The JSON text `null`. -/
def jsonNull : Bytes := [0x6E, 0x75, 0x6C, 0x6C]

/-- The bytes `{"uuid":` and nothing more: a truncated record. -/
def corruptRecord : Bytes := [0x7B, 0x22, 0x75, 0x75, 0x69, 0x64, 0x22, 0x3A]

/-- The calls `AddUser("a", "secret", false)`, `AddUser("\xff", "secret", true)`,
`AddUser("c", "secret", false)` with identifiers `1`, `2`, `3`: the second user
name is not valid UTF-8. -/
def mixedCalls : List AddUserCall :=
  [⟨worldOf [0x31], [0x61], secret, false⟩, ⟨worldOf [0x32], [0xFF], secret, true⟩,
    ⟨worldOf [0x33], [0x63], secret, false⟩]

/-- The calls `AddUser("a", "secret", false)`, `AddUser("b", "secret", true)`,
`AddUser("c", "secret", false)` with identifiers `1`, `2`, `3`. -/
def threeCalls : List AddUserCall :=
  [⟨worldOf [0x31], [0x61], secret, false⟩, ⟨worldOf [0x32], [0x62], secret, true⟩,
    ⟨worldOf [0x33], [0x63], secret, false⟩]

/-- The raw contents `raw` are what the scanner lets through before a closing
quote. -/
def Scanned (raw : Bytes) : Prop :=
  ∃ rest, scanString .inString (raw ++ 0x22 :: rest) = .ok (raw, rest)

/-- A parse result that is not the fuel failure and, on success, leaves fewer
than `n` bytes. -/
def Good {α : Type} (n : Nat) : Except Error (α × Bytes) → Prop
  | .error e => e ≠ .phase
  | .ok (_, rest) => rest.length < n

/-- A scan result that is not the fuel failure and, on success, leaves at most
`n` bytes. -/
def GoodScan (n : Nat) : Except Error Bytes → Prop
  | .error e => e ≠ .phase
  | .ok rest => rest.length ≤ n

/-! ## Lemmas -/


theorem DecodeRune_cases (b : Nat) (rest : Bytes) (hb : 0x80 ≤ b) :
    DecodeRune (b :: rest) = (RuneError, 1) ∨
      ∃ r tail, IsMulti (b :: rest) r tail ∧ DecodeRune (b :: rest) = (r, (EncodeRune r).length) := by
  by_cases h2 : b < 0xC2
  · left; simp only [DecodeRune]; rw [if_neg (by omega), if_pos h2]
  by_cases h3 : b < 0xE0
  · -- two bytes
    rcases rest with _ | ⟨b1, rest⟩
    · left; simp only [DecodeRune]; rw [if_neg (by omega), if_neg h2, if_pos h3]
    · by_cases hb1 : 0x80 ≤ b1 ∧ b1 ≤ 0xBF
      · right
        have e : EncodeRune ((b % 0x20) * 0x40 + b1 % 0x40) = [b, b1] := by
          unfold EncodeRune
          rw [if_neg (by omega), if_pos (by omega)]
          congr 1
          · omega
          · congr 1; omega
        have d : ∀ t, DecodeRune (b :: b1 :: t) = ((b % 0x20) * 0x40 + b1 % 0x40, 2) := by
          intro t
          simp only [DecodeRune]; rw [if_neg (by omega), if_neg h2, if_pos h3, if_pos hb1]
        refine ⟨(b % 0x20) * 0x40 + b1 % 0x40, rest, ⟨?_, ?_, ?_, ?_⟩, ?_⟩
        · rw [e]; rfl
        · rw [e]; simp
        · rw [e]; intro x hx; simp at hx; omega
        · intro t; rw [e]; exact d t
        · rw [e]; exact d rest
      · left; simp only [DecodeRune]; rw [if_neg (by omega), if_neg h2, if_pos h3, if_neg hb1]
  by_cases h4 : b < 0xF0
  · rcases rest with _ | ⟨b1, _ | ⟨b2, rest⟩⟩
    · left; simp only [DecodeRune]; rw [if_neg (by omega), if_neg h2, if_neg h3, if_pos h4]
    · left; simp only [DecodeRune]; rw [if_neg (by omega), if_neg h2, if_neg h3, if_pos h4]
    · by_cases hb1 : (if b = 0xE0 then 0xA0 else 0x80) ≤ b1 ∧ b1 ≤ (if b = 0xED then 0x9F else 0xBF)
      · by_cases hb2 : 0x80 ≤ b2 ∧ b2 ≤ 0xBF
        · right
          have hb1' : 0x80 ≤ b1 ∧ b1 ≤ 0xBF ∧ (b = 0xE0 → 0xA0 ≤ b1) ∧ (b = 0xED → b1 ≤ 0x9F) := by
            split_ifs at hb1 <;> omega
          have e : EncodeRune ((b % 0x10) * 0x1000 + (b1 % 0x40) * 0x40 + b2 % 0x40) = [b, b1, b2] := by
            unfold EncodeRune
            rw [if_neg (by omega), if_neg (by omega), if_neg (by omega), if_pos (by omega)]
            congr 1
            · omega
            · congr 1
              · omega
              · congr 1; omega
          have d : ∀ t, DecodeRune (b :: b1 :: b2 :: t)
              = ((b % 0x10) * 0x1000 + (b1 % 0x40) * 0x40 + b2 % 0x40, 3) := by
            intro t
            simp only [DecodeRune]
            rw [if_neg (by omega), if_neg h2, if_neg h3, if_pos h4, if_pos hb1, if_pos hb2]
          refine ⟨(b % 0x10) * 0x1000 + (b1 % 0x40) * 0x40 + b2 % 0x40, rest, ⟨?_, ?_, ?_, ?_⟩, ?_⟩
          · rw [e]; rfl
          · rw [e]; simp
          · rw [e]; intro x hx; simp at hx; omega
          · intro t; rw [e]; exact d t
          · rw [e]; exact d rest
        · left; simp only [DecodeRune]
          rw [if_neg (by omega), if_neg h2, if_neg h3, if_pos h4, if_pos hb1, if_neg hb2]
      · left; simp only [DecodeRune]
        rw [if_neg (by omega), if_neg h2, if_neg h3, if_pos h4, if_neg hb1]
  by_cases h5 : b < 0xF5
  · rcases rest with _ | ⟨b1, _ | ⟨b2, _ | ⟨b3, rest⟩⟩⟩
    · left; simp only [DecodeRune]; rw [if_neg (by omega), if_neg h2, if_neg h3, if_neg h4, if_pos h5]
    · left; simp only [DecodeRune]; rw [if_neg (by omega), if_neg h2, if_neg h3, if_neg h4, if_pos h5]
    · left; simp only [DecodeRune]; rw [if_neg (by omega), if_neg h2, if_neg h3, if_neg h4, if_pos h5]
    · by_cases hb1 : (if b = 0xF0 then 0x90 else 0x80) ≤ b1 ∧ b1 ≤ (if b = 0xF4 then 0x8F else 0xBF)
      · by_cases hb2 : 0x80 ≤ b2 ∧ b2 ≤ 0xBF
        · by_cases hb3 : 0x80 ≤ b3 ∧ b3 ≤ 0xBF
          · right
            have hb1' : 0x80 ≤ b1 ∧ b1 ≤ 0xBF ∧ (b = 0xF0 → 0x90 ≤ b1) ∧ (b = 0xF4 → b1 ≤ 0x8F) := by
              split_ifs at hb1 <;> omega
            have e : EncodeRune ((b % 0x08) * 0x40000 + (b1 % 0x40) * 0x1000 + (b2 % 0x40) * 0x40
                + b3 % 0x40) = [b, b1, b2, b3] := by
              unfold EncodeRune
              rw [if_neg (by omega), if_neg (by omega), if_neg (by omega), if_neg (by omega)]
              congr 1
              · omega
              · congr 1
                · omega
                · congr 1
                  · omega
                  · congr 1; omega
            have d : ∀ t, DecodeRune (b :: b1 :: b2 :: b3 :: t)
                = ((b % 0x08) * 0x40000 + (b1 % 0x40) * 0x1000 + (b2 % 0x40) * 0x40 + b3 % 0x40, 4) := by
              intro t
              simp only [DecodeRune]
              rw [if_neg (by omega), if_neg h2, if_neg h3, if_neg h4, if_pos h5, if_pos hb1,
                if_pos hb2, if_pos hb3]
            refine ⟨(b % 0x08) * 0x40000 + (b1 % 0x40) * 0x1000 + (b2 % 0x40) * 0x40 + b3 % 0x40,
              rest, ⟨?_, ?_, ?_, ?_⟩, ?_⟩
            · rw [e]; rfl
            · rw [e]; simp
            · rw [e]; intro x hx; simp at hx; omega
            · intro t; rw [e]; exact d t
            · rw [e]; exact d rest
          · left; simp only [DecodeRune]
            rw [if_neg (by omega), if_neg h2, if_neg h3, if_neg h4, if_pos h5, if_pos hb1,
              if_pos hb2, if_neg hb3]
        · left; simp only [DecodeRune]
          rw [if_neg (by omega), if_neg h2, if_neg h3, if_neg h4, if_pos h5, if_pos hb1, if_neg hb2]
      · left; simp only [DecodeRune]
        rw [if_neg (by omega), if_neg h2, if_neg h3, if_neg h4, if_pos h5, if_neg hb1]
  · left; simp only [DecodeRune]
    rw [if_neg (by omega), if_neg h2, if_neg h3, if_neg h4, if_neg h5]


theorem consRaw_consRawList (c : Nat) (cs : Bytes) (x : Except Error (Bytes × Bytes)) :
    consRaw c (consRawList cs x) = consRawList (c :: cs) x := by
  rcases x with e | ⟨raw, rest⟩ <;> rfl

theorem consRawList_nil (x : Except Error (Bytes × Bytes)) : consRawList [] x = x := by
  rcases x with e | ⟨raw, rest⟩ <;> rfl

theorem consRaw_eq (c : Nat) (x : Except Error (Bytes × Bytes)) :
    consRaw c x = consRawList [c] x := by
  rcases x with e | ⟨raw, rest⟩ <;> rfl

theorem scan_plain (c : Nat) (x : Bytes) (h1 : 0x20 ≤ c) (h2 : c ≠ 0x22) (h3 : c ≠ 0x5C) :
    scanString .inString (c :: x) = consRawList [c] (scanString .inString x) := by
  rw [scanString, if_neg h2, if_neg h3, if_neg (by omega), consRaw_eq]

theorem scan_high (cs x : Bytes) (h : ∀ c ∈ cs, 0x80 ≤ c) :
    scanString .inString (cs ++ x) = consRawList cs (scanString .inString x) := by
  induction cs with
  | nil => simp [consRawList_nil]
  | cons c cs ih =>
    have hc : 0x80 ≤ c := h c (by simp)
    rw [List.cons_append, scan_plain c _ (by omega) (by omega) (by omega),
      ih (fun y hy => h y (by simp [hy])), ← consRaw_eq, consRaw_consRawList]

theorem isHexDigit_hex (n : Nat) (h : n < 16) : isHexDigit (hex n) = true := by
  interval_cases n <;> decide

theorem hexVal_hex (n : Nat) (h : n < 16) : hexVal (hex n) = n := by
  interval_cases n <;> decide

theorem scan_u (h1 h2 h3 h4 : Nat) (x : Bytes) (e1 : isHexDigit h1 = true)
    (e2 : isHexDigit h2 = true) (e3 : isHexDigit h3 = true) (e4 : isHexDigit h4 = true) :
    scanString .inString ([0x5C, 0x75, h1, h2, h3, h4] ++ x)
      = consRawList [0x5C, 0x75, h1, h2, h3, h4] (scanString .inString x) := by
  simp [scanString, e1, e2, e3, e4, consRaw_eq, consRaw_consRawList]
  rcases scanString .inString x with e | ⟨raw, rest⟩ <;> rfl

theorem scan_esc2 (e : Nat) (x : Bytes)
    (he : e = 0x62 ∨ e = 0x66 ∨ e = 0x6E ∨ e = 0x72 ∨ e = 0x74 ∨ e = 0x5C ∨ e = 0x2F ∨ e = 0x22) :
    scanString .inString (0x5C :: e :: x) = consRawList [0x5C, e] (scanString .inString x) := by
  rw [scanString, if_neg (by decide), if_pos rfl, scanString, if_pos he]
  rcases scanString .inString x with e | ⟨raw, rest⟩ <;> rfl

theorem scan_escapeByte (b : Nat) (x : Bytes) (hb : b < 0x80) :
    scanString .inString (escapeByte b ++ x)
      = consRawList (escapeByte b) (scanString .inString x) := by
  unfold escapeByte
  split_ifs with h1 h2 h3 h4 h5 h6
  · exact scan_esc2 b x (by omega)
  · exact scan_esc2 _ x (by decide)
  · exact scan_esc2 _ x (by decide)
  · exact scan_esc2 _ x (by decide)
  · exact scan_esc2 _ x (by decide)
  · exact scan_esc2 _ x (by decide)
  · exact scan_u _ _ _ _ x (by decide) (by decide) (isHexDigit_hex _ (by omega)) (isHexDigit_hex _ (by omega))

theorem scan_appendStringLoop (f : Nat) : ∀ (s t : Bytes),
    scanString .inString (appendStringLoop f s ++ 0x22 :: t) = .ok (appendStringLoop f s, t) := by
  induction f with
  | zero =>
    intro s t
    cases s <;> simp [appendStringLoop, scanString]
  | succ f ih =>
    intro s t
    rcases s with _ | ⟨b, rest⟩
    · simp [appendStringLoop, scanString]
    · rw [appendStringLoop]
      by_cases hb : b < 0x80
      · rw [if_pos hb]
        by_cases hs : htmlSafeSet b = true
        · rw [if_pos hs]
          have : 0x20 ≤ b ∧ b ≠ 0x22 ∧ b ≠ 0x5C := by
            simp [htmlSafeSet] at hs; omega
          rw [List.append_assoc, List.singleton_append, scan_plain b _ this.1 this.2.1 this.2.2, ih]
          rfl
        · rw [if_neg hs, List.append_assoc, scan_escapeByte b _ hb, ih]
          rfl
      · rw [if_neg hb]
        rcases DecodeRune_cases b rest (by omega) with h | ⟨r, tail, hm, hd⟩
        · simp only [h, and_self, if_true]
          rw [List.append_assoc,
            scan_u 0x66 0x66 0x66 0x64 _ (by decide) (by decide) (by decide) (by decide), ih]
          rfl
        · have hne : ¬ (r = RuneError ∧ (EncodeRune r).length = 1) := by
            intro h; have := hm.len; omega
          have htake : (b :: rest).take (EncodeRune r).length = EncodeRune r := by
            rw [hm.split]; simp
          have hdrop : (b :: rest).drop (EncodeRune r).length = tail := by
            rw [hm.split]; simp
          simp only [hd, hne, if_false, htake, hdrop]
          split_ifs with h28
          · rw [List.append_assoc,
              scan_u 0x32 0x30 0x32 (hex (r % 16)) _ (by decide) (by decide) (by decide)
                (isHexDigit_hex _ (by omega)), ih]
            rfl
          · rw [List.append_assoc, scan_high _ _ hm.high, ih]
            rfl


theorem prepend_some (bs t : Bytes) : prepend bs (some t) = some (bs ++ t) := rfl

theorem unq_plain (g c : Nat) (x : Bytes) (h1 : 0x20 ≤ c) (h2 : c ≠ 0x22) (h3 : c ≠ 0x5C)
    (h4 : c < 0x80) : unquoteLoop (g + 1) (c :: x) = prepend [c] (unquoteLoop g x) := by
  simp only [unquoteLoop]
  rw [if_neg h3, if_neg (by omega), if_pos h4]

theorem unq_esc2 (g e v : Nat) (x : Bytes)
    (he : (e = 0x22 ∧ v = e) ∨ (e = 0x5C ∧ v = e) ∨ (e = 0x62 ∧ v = 0x08) ∨ (e = 0x66 ∧ v = 0x0C)
      ∨ (e = 0x6E ∧ v = 0x0A) ∨ (e = 0x72 ∧ v = 0x0D) ∨ (e = 0x74 ∧ v = 0x09)) :
    unquoteLoop (g + 1) ([0x5C, e] ++ x) = prepend [v] (unquoteLoop g x) := by
  rcases he with ⟨rfl, rfl⟩ | ⟨rfl, rfl⟩ | ⟨rfl, rfl⟩ | ⟨rfl, rfl⟩ | ⟨rfl, rfl⟩ | ⟨rfl, rfl⟩ | ⟨rfl, rfl⟩ <;>
    simp [unquoteLoop]

theorem unq_u (g h1 h2 h3 h4 : Nat) (x : Bytes) (e1 : isHexDigit h1 = true)
    (e2 : isHexDigit h2 = true) (e3 : isHexDigit h3 = true) (e4 : isHexDigit h4 = true)
    (hs : utf16IsSurrogate (((hexVal h1 * 16 + hexVal h2) * 16 + hexVal h3) * 16 + hexVal h4) = false) :
    unquoteLoop (g + 1) ([0x5C, 0x75, h1, h2, h3, h4] ++ x)
      = prepend (EncodeRune (((hexVal h1 * 16 + hexVal h2) * 16 + hexVal h3) * 16 + hexVal h4))
          (unquoteLoop g x) := by
  simp [unquoteLoop, getu4, e1, e2, e3, e4, hs]

theorem unq_escapeByte (g b : Nat) (x : Bytes) (hb : b < 0x80) :
    unquoteLoop (g + 1) (escapeByte b ++ x) = prepend [b] (unquoteLoop g x) := by
  unfold escapeByte
  split_ifs with h1 h2 h3 h4 h5 h6
  · exact unq_esc2 g b b x (by omega)
  · exact unq_esc2 g _ b x (by omega)
  · exact unq_esc2 g _ b x (by omega)
  · exact unq_esc2 g _ b x (by omega)
  · exact unq_esc2 g _ b x (by omega)
  · exact unq_esc2 g _ b x (by omega)
  · have hv : ((hexVal 0x30 * 16 + hexVal 0x30) * 16 + hexVal (hex (b / 16))) * 16
        + hexVal (hex (b % 16)) = b := by
      rw [hexVal_hex _ (by omega), hexVal_hex _ (by omega)]
      have : hexVal 0x30 = 0 := by decide
      rw [this]; omega
    have := unq_u g 0x30 0x30 (hex (b / 16)) (hex (b % 16)) x (by decide) (by decide)
      (isHexDigit_hex _ (by omega)) (isHexDigit_hex _ (by omega))
      (by rw [hv]; simp [utf16IsSurrogate]; omega)
    rw [hv] at this
    rw [this]
    have : EncodeRune b = [b] := by unfold EncodeRune; rw [if_pos (by omega)]
    rw [this]

theorem unq_multi (g r : Nat) (s tail x : Bytes) (hm : IsMulti s r tail) :
    unquoteLoop (g + 1) (EncodeRune r ++ x) = prepend (EncodeRune r) (unquoteLoop g x) := by
  have hlen := hm.len
  have hd := hm.dec x
  rcases he : EncodeRune r with _ | ⟨c, cs⟩
  · rw [he] at hlen; simp at hlen
  · have hc : 0x80 ≤ c := hm.high c (by rw [he]; simp)
    rw [he] at hd
    rw [List.cons_append]
    simp only [unquoteLoop]
    rw [if_neg (by omega), if_neg (by omega), if_neg (by omega)]
    simp only [← List.cons_append, hd]
    rw [← he]; simp


theorem unq_appendStringLoop (f : Nat) : ∀ (s : Bytes) (g : Nat), s.length ≤ f →
    (appendStringLoop f s).length ≤ g →
    unquoteLoop g (appendStringLoop f s) = some (coerceLoop f s) := by
  induction f with
  | zero =>
    intro s g hs _
    cases s with
    | nil => simp [appendStringLoop, coerceLoop, unquoteLoop]
    | cons b rest => simp at hs
  | succ f ih =>
    intro s g hs hg
    rcases s with _ | ⟨b, rest⟩
    · simp [appendStringLoop, coerceLoop, unquoteLoop]
    · have hrest : rest.length ≤ f := by simpa using hs
      rw [appendStringLoop] at hg ⊢
      rw [coerceLoop]
      by_cases hb : b < 0x80
      · rw [if_pos hb] at hg ⊢
        rw [if_pos hb]
        by_cases hsafe : htmlSafeSet b = true
        · rw [if_pos hsafe] at hg ⊢
          have : 0x20 ≤ b ∧ b ≠ 0x22 ∧ b ≠ 0x5C := by
            simp [htmlSafeSet] at hsafe; omega
          obtain ⟨g, rfl⟩ : ∃ g', g = g' + 1 := ⟨g - 1, by simp at hg; omega⟩
          rw [List.singleton_append, unq_plain g b _ this.1 this.2.1 this.2.2 hb,
            ih rest g hrest (by simp at hg; omega)]
          rfl
        · rw [if_neg hsafe] at hg ⊢
          have hl : 1 ≤ (escapeByte b).length := by
            unfold escapeByte; split_ifs <;> simp
          obtain ⟨g, rfl⟩ : ∃ g', g = g' + 1 := ⟨g - 1, by simp at hg; omega⟩
          rw [unq_escapeByte g b _ hb, ih rest g hrest (by simp at hg; omega)]
          rfl
      · rw [if_neg hb] at hg ⊢
        rw [if_neg hb]
        rcases DecodeRune_cases b rest (by omega) with h | ⟨r, tail, hm, hd⟩
        · simp only [h, and_self, if_true] at hg ⊢
          obtain ⟨g, rfl⟩ : ∃ g', g = g' + 1 := ⟨g - 1, by simp at hg; omega⟩
          rw [unq_u g 0x66 0x66 0x66 0x64 _ (by decide) (by decide) (by decide) (by decide)
            (by decide), ih rest g hrest (by simp at hg; omega)]
          rfl
        · have hne : ¬ (r = RuneError ∧ (EncodeRune r).length = 1) := by
            intro h; have := hm.len; omega
          have htake : (b :: rest).take (EncodeRune r).length = EncodeRune r := by
            rw [hm.split]; simp
          have hdrop : (b :: rest).drop (EncodeRune r).length = tail := by
            rw [hm.split]; simp
          have htail : tail.length ≤ f := by
            have := congrArg List.length hm.split
            have := hm.len
            simp at *
            omega
          simp only [hd, hne, if_false, htake, hdrop] at hg ⊢
          split_ifs at hg ⊢ with h28
          · obtain ⟨g, rfl⟩ : ∃ g', g = g' + 1 := ⟨g - 1, by simp at hg; omega⟩
            have hv : ((hexVal 0x32 * 16 + hexVal 0x30) * 16 + hexVal 0x32) * 16
                + hexVal (hex (r % 16)) = r := by
              rw [hexVal_hex _ (by omega)]
              have h1 : hexVal 0x32 = 2 := by decide
              have h2 : hexVal 0x30 = 0 := by decide
              rw [h1, h2]; omega
            have := unq_u g 0x32 0x30 0x32 (hex (r % 16)) (appendStringLoop f tail)
              (by decide) (by decide) (by decide) (isHexDigit_hex _ (by omega))
              (by rw [hv]; simp [utf16IsSurrogate]; omega)
            rw [hv] at this
            rw [this, ih tail g htail (by simp at hg; omega)]
            rfl
          · obtain ⟨g, rfl⟩ : ∃ g', g = g' + 1 := ⟨g - 1, by
              have := hm.len; simp at hg; omega⟩
            rw [unq_multi g r _ tail _ hm, ih tail g htail (by
              have := hm.len; simp at hg; omega)]
            rfl

theorem unquoteBytes_appendStringLoop (s : Bytes) :
    unquoteBytes (appendStringLoop s.length s) = some (coerceUTF8 s) :=
  unq_appendStringLoop s.length s _ (le_refl _) (le_refl _)

theorem coerceLoop_valid (f : Nat) : ∀ s : Bytes, utf8ValidLoop f s = true → coerceLoop f s = s := by
  induction f with
  | zero => intro s h; cases s <;> simp_all [utf8ValidLoop, coerceLoop]
  | succ f ih =>
    intro s h
    rcases s with _ | ⟨b, rest⟩
    · simp [coerceLoop]
    · rw [utf8ValidLoop] at h
      rw [coerceLoop]
      by_cases hb : b < 0x80
      · rw [if_pos hb] at h ⊢
        rw [ih rest h]
      · rw [if_neg hb] at h ⊢
        simp only at h ⊢
        split_ifs at h ⊢ with hd
        rw [ih _ h]
        exact List.take_append_drop _ _

theorem coerceUTF8_valid (s : Bytes) (h : utf8Valid s = true) : coerceUTF8 s = s :=
  coerceLoop_valid _ s h



theorem skipSpace_cons (c : Nat) (x : Bytes) (h : isSpace c = false) :
    skipSpace (c :: x) = c :: x := by
  rw [skipSpace]; simp [h]

theorem scanString_quoted (s t : Bytes) :
    scanString .inString (appendStringLoop s.length s ++ [0x22] ++ t)
      = .ok (appendStringLoop s.length s, t) := by
  rw [List.append_assoc]; exact scan_appendStringLoop _ s t

theorem parseValue_string (fuel depth : Nat) (s rest : Bytes) :
    parseValue (fuel + 1) depth (appendString s ++ rest) = .ok (.str (coerceUTF8 s), rest) := by
  rw [parseValue]
  simp only [appendString, List.append_assoc, List.singleton_append, List.cons_append,
    List.nil_append]
  rw [skipSpace_cons _ _ (by decide)]
  simp [scan_appendStringLoop, unquoteBytes_appendStringLoop]

theorem parseValue_bool (fuel depth : Nat) (b : Bool) (c : Nat) (rest : Bytes) :
    parseValue (fuel + 1) depth (appendBool b ++ c :: rest) = .ok (.bool b, c :: rest) := by
  cases b <;> simp [parseValue, appendBool, skipSpace, isSpace, scanLiteral]


theorem parseMembers_str (fuel depth : Nat) (name s rest : Bytes)
    (hname : appendStringLoop name.length name = name) (hc : coerceUTF8 name = name) :
    parseMembers (fuel + 2) depth
        ([0x22] ++ name ++ [0x22, 0x3A] ++ appendString s ++ [0x2C] ++ rest)
      = match parseMembers (fuel + 1) depth rest with
        | .error e => .error e
        | .ok (ms, r) => .ok ((name, .str (coerceUTF8 s)) :: ms, r) := by
  rw [parseMembers]
  simp only [List.append_assoc, List.singleton_append, List.cons_append, List.nil_append]
  rw [skipSpace_cons _ _ (by decide)]
  have h1 := scan_appendStringLoop name.length name
    (0x3A :: (appendString s ++ 0x2C :: rest))
  rw [hname] at h1
  have h2 := unquoteBytes_appendStringLoop name
  rw [hname, hc] at h2
  have h3 := parseValue_string fuel depth s (0x2C :: rest)
  simp [h1, h2, h3, skipSpace, isSpace]

theorem parseMembers_bool_last (fuel depth : Nat) (name : Bytes) (b : Bool) (rest : Bytes)
    (hname : appendStringLoop name.length name = name) (hc : coerceUTF8 name = name) :
    parseMembers (fuel + 2) depth
        ([0x22] ++ name ++ [0x22, 0x3A] ++ appendBool b ++ [0x7D] ++ rest)
      = .ok ([(name, .bool b)], rest) := by
  rw [parseMembers]
  simp only [List.append_assoc, List.singleton_append, List.cons_append, List.nil_append]
  rw [skipSpace_cons _ _ (by decide)]
  have h1 := scan_appendStringLoop name.length name
    (0x3A :: (appendBool b ++ 0x7D :: rest))
  rw [hname] at h1
  have h2 := unquoteBytes_appendStringLoop name
  rw [hname, hc] at h2
  have h3 := parseValue_bool fuel depth b 0x7D rest
  simp [h1, h2, h3, skipSpace, isSpace]

theorem parseValue_marshalUser (fuel : Nat) (u : User) (rest : Bytes) :
    parseValue (fuel + 6) 0 (marshalUser u ++ rest)
      = .ok (.obj [(nameUUID, .str (coerceUTF8 u.UUID)),
          (nameUsername, .str (coerceUTF8 u.Username)),
          (namePassword, .str (coerceUTF8 u.Password)),
          (nameIsAdmin, .bool u.IsAdmin)], rest) := by
  rw [parseValue]
  have m1 := parseMembers_str (fuel + 3) 1 nameUUID u.UUID
    ([0x22] ++ nameUsername ++ [0x22, 0x3A] ++ appendString u.Username ++ [0x2C] ++
      ([0x22] ++ namePassword ++ [0x22, 0x3A] ++ appendString u.Password ++ [0x2C] ++
        ([0x22] ++ nameIsAdmin ++ [0x22, 0x3A] ++ appendBool u.IsAdmin ++ [0x7D] ++ rest)))
    (by decide) (by decide)
  have m2 := parseMembers_str (fuel + 2) 1 nameUsername u.Username
      ([0x22] ++ namePassword ++ [0x22, 0x3A] ++ appendString u.Password ++ [0x2C] ++
        ([0x22] ++ nameIsAdmin ++ [0x22, 0x3A] ++ appendBool u.IsAdmin ++ [0x7D] ++ rest))
    (by decide) (by decide)
  have m3 := parseMembers_str (fuel + 1) 1 namePassword u.Password
        ([0x22] ++ nameIsAdmin ++ [0x22, 0x3A] ++ appendBool u.IsAdmin ++ [0x7D] ++ rest)
    (by decide) (by decide)
  have m4 := parseMembers_bool_last fuel 1 nameIsAdmin u.IsAdmin rest (by decide) (by decide)
  rw [m4] at m3
  rw [m3] at m2
  rw [m2] at m1
  simp only [marshalUser, List.append_assoc, List.singleton_append, List.cons_append,
    List.nil_append] at m1 ⊢
  rw [skipSpace_cons _ _ (by decide)]
  simp only [if_true]
  rw [if_neg (by decide), skipSpace_cons _ _ (by decide)]
  simp only
  rw [if_neg (by decide)]
  have e5 : fuel + 5 = fuel + 3 + 2 := rfl
  rw [e5, m1]

theorem marshalUser_length (u : User) : 6 ≤ (marshalUser u).length := by
  simp [marshalUser, nameUUID]

theorem unmarshal_fields (a b c : Bytes) (d : Bool) :
    unmarshal (.obj [(nameUUID, .str a), (nameUsername, .str b), (namePassword, .str c),
      (nameIsAdmin, .bool d)]) = (some ⟨a, b, c, d⟩, none) := by
  have f1 : findField nameUUID = some .uuid := by decide
  have f2 : findField nameUsername = some .username := by decide
  have f3 : findField namePassword = some .password := by decide
  have f4 : findField nameIsAdmin = some .isAdmin := by decide
  simp [unmarshal, storeMember, f1, f2, f3, f4, storeString, storeBool, User.zero]

theorem DecodeUser_Encode (u : User) :
    (u.Encode).2 = none ∧ DecodeUser (u.Encode).1 = (some u.coerce, none) := by
  have hE : u.Encode = (marshalUser u ++ [0x0A], none) := rfl
  rw [hE]
  refine ⟨rfl, ?_⟩
  simp only
  obtain ⟨k, hk⟩ : ∃ k, 2 * (marshalUser u ++ [0x0A]).length + 1 = k + 6 :=
    ⟨2 * (marshalUser u ++ [0x0A]).length + 1 - 6, by
      have := marshalUser_length u; simp; omega⟩
  have hs : ∃ c r, skipSpace (marshalUser u ++ [0x0A]) = c :: r := by
    simp only [marshalUser, List.append_assoc, List.singleton_append, List.cons_append,
      List.nil_append]
    rw [skipSpace_cons _ _ (by decide)]
    exact ⟨_, _, rfl⟩
  obtain ⟨c, r, hs⟩ := hs
  simp only [DecodeUser, Decoder_Decode, readValue, hs, hk, parseValue_marshalUser,
    unmarshal_fields, User.coerce]

/-! ## The decoder never runs out of fuel -/

theorem skipSpace_length (s : Bytes) : (skipSpace s).length ≤ s.length := by
  induction s with
  | nil => simp [skipSpace]
  | cons c r ih =>
    rw [skipSpace]
    split_ifs
    · simp; omega
    · simp

theorem scanString_length (s : Bytes) : ∀ (st : StrState) (raw rest : Bytes),
    scanString st s = .ok (raw, rest) → rest.length < s.length := by
  induction s with
  | nil => intro st raw rest h; cases st <;> simp [scanString] at h
  | cons c r ih =>
    intro st raw rest h
    have key : ∀ st2 raw rest, consRaw c (scanString st2 r) = .ok (raw, rest) →
        rest.length < (c :: r).length := by
      intro st2 raw rest h2
      rcases h3 : scanString st2 r with e | ⟨raw3, rest3⟩
      · rw [h3] at h2; simp [consRaw] at h2
      · rw [h3] at h2
        simp only [consRaw, Except.ok.injEq, Prod.mk.injEq] at h2
        have := ih st2 raw3 rest3 h3
        rw [← h2.2]; simp; omega
    cases st with
    | inString =>
      simp only [scanString] at h
      split_ifs at h
      · simp only [Except.ok.injEq, Prod.mk.injEq] at h
        rw [← h.2]; simp
      · exact key _ _ _ h
      · exact key _ _ _ h
    | esc =>
      simp only [scanString] at h
      split_ifs at h
      · exact key _ _ _ h
      · exact key _ _ _ h
    | escU k =>
      simp only [scanString] at h
      split_ifs at h
      · exact key _ _ _ h
      · exact key _ _ _ h

theorem scanNumber_length (s : Bytes) : ∀ (st : NumState) (rest : Bytes),
    scanNumber st s = .ok rest → rest.length ≤ s.length := by
  induction s with
  | nil => intro st rest h; simp only [scanNumber] at h; split_ifs at h; simp_all
  | cons c r ih =>
    intro st rest h
    cases st <;> simp only [scanNumber] at h <;> split_ifs at h <;>
      first
      | exact Nat.le_trans (ih _ _ h) (by simp)
      | (simp only [Except.ok.injEq] at h; rw [← h])

theorem scanLiteral_length (xs : Bytes) : ∀ (s rest : Bytes),
    scanLiteral xs s = .ok rest → rest.length ≤ s.length := by
  induction xs with
  | nil => intro s rest h; simp [scanLiteral] at h; rw [h]
  | cons x xs ih =>
    intro s rest h
    cases s with
    | nil => simp [scanLiteral] at h
    | cons c r =>
      simp only [scanLiteral] at h
      split_ifs at h
      have := ih _ _ h
      simp; omega



theorem consRaw_ok (c : Nat) (x : Except Error (Bytes × Bytes)) (raw rest : Bytes)
    (h : consRaw c x = .ok (raw, rest)) : ∃ raw1, raw = c :: raw1 ∧ x = .ok (raw1, rest) := by
  rcases x with e | ⟨raw1, rest1⟩
  · simp [consRaw] at h
  · simp only [consRaw, Except.ok.injEq, Prod.mk.injEq] at h
    exact ⟨raw1, h.1.symm, by rw [h.2]⟩

theorem consRawList_ok (cs : Bytes) (x : Except Error (Bytes × Bytes)) (raw rest : Bytes)
    (h : consRawList cs x = .ok (cs ++ raw, rest)) : x = .ok (raw, rest) := by
  rcases x with e | ⟨raw1, rest1⟩
  · simp [consRawList] at h
  · simp only [consRawList, Except.ok.injEq, Prod.mk.injEq, List.append_cancel_left_eq] at h
    rw [h.1, h.2]

theorem scanString_split (s : Bytes) : ∀ (st : StrState) (raw rest : Bytes),
    scanString st s = .ok (raw, rest) → s = raw ++ 0x22 :: rest := by
  induction s with
  | nil => intro st raw rest h; cases st <;> simp [scanString] at h
  | cons c r ih =>
    intro st raw rest h
    have key : ∀ st2, consRaw c (scanString st2 r) = .ok (raw, rest) →
        c :: r = raw ++ 0x22 :: rest := by
      intro st2 h2
      obtain ⟨raw1, rfl, h3⟩ := consRaw_ok _ _ _ _ h2
      rw [ih st2 raw1 rest h3]; rfl
    cases st with
    | inString =>
      simp only [scanString] at h
      split_ifs at h with h1
      · simp only [Except.ok.injEq, Prod.mk.injEq] at h
        rw [← h.1, ← h.2, h1]; rfl
      · exact key _ h
      · exact key _ h
    | esc =>
      simp only [scanString] at h
      split_ifs at h
      · exact key _ h
      · exact key _ h
    | escU k =>
      simp only [scanString] at h
      split_ifs at h
      · exact key _ h
      · exact key _ h

theorem scanned_of_scan (s raw rest : Bytes) (h : scanString .inString s = .ok (raw, rest)) :
    Scanned raw := by
  have := scanString_split s _ _ _ h
  exact ⟨rest, by rw [← this]; exact h⟩



theorem scanned_append (cs raw : Bytes)
    (hcs : ∀ x, scanString .inString (cs ++ x) = consRawList cs (scanString .inString x))
    (h : Scanned (cs ++ raw)) : Scanned raw := by
  obtain ⟨rest, h⟩ := h
  rw [List.append_assoc, hcs] at h
  exact ⟨rest, consRawList_ok _ _ _ _ h⟩

theorem scanned_cons (c : Nat) (raw : Bytes) (h1 : 0x20 ≤ c) (h2 : c ≠ 0x22) (h3 : c ≠ 0x5C)
    (h : Scanned (c :: raw)) : Scanned raw :=
  scanned_append [c] raw (fun x => scan_plain c x h1 h2 h3) h

theorem escU_step (k : Nat) (raw rest : Bytes)
    (h : scanString (.escU k) (raw ++ 0x22 :: rest) = .ok (raw, rest)) :
    ∃ d raw1, raw = d :: raw1 ∧ isHexDigit d = true ∧
      scanString (if k ≤ 1 then .inString else .escU (k - 1)) (raw1 ++ 0x22 :: rest)
        = .ok (raw1, rest) := by
  rcases raw with _ | ⟨d, raw1⟩
  · simp only [List.nil_append, scanString] at h
    rw [if_neg (by decide)] at h
    simp at h
  · simp only [List.cons_append, scanString] at h
    split_ifs at h with hd
    all_goals
      obtain ⟨raw2, h2, h3⟩ := consRaw_ok _ _ _ _ h
      simp only [List.cons.injEq, true_and] at h2
      subst h2
      refine ⟨d, raw1, rfl, hd, ?_⟩
      first
      | (rw [if_pos (by assumption)]; exact h3)
      | (rw [if_neg (by assumption)]; exact h3)

theorem scanned_cases (c : Nat) (raw1 : Bytes) (h : Scanned (c :: raw1)) :
    c ≠ 0x22 ∧ 0x20 ≤ c ∧
    (c ≠ 0x5C → Scanned raw1) ∧
    (c = 0x5C → ∃ e raw2, raw1 = e :: raw2 ∧
      (((e = 0x62 ∨ e = 0x66 ∨ e = 0x6E ∨ e = 0x72 ∨ e = 0x74 ∨ e = 0x5C ∨ e = 0x2F ∨ e = 0x22)
          ∧ Scanned raw2) ∨
        (e = 0x75 ∧ ∃ h1 h2 h3 h4 raw3, raw2 = h1 :: h2 :: h3 :: h4 :: raw3 ∧
          isHexDigit h1 = true ∧ isHexDigit h2 = true ∧ isHexDigit h3 = true ∧
          isHexDigit h4 = true ∧ Scanned raw3))) := by
  obtain ⟨rest, h⟩ := h
  simp only [List.cons_append, scanString] at h
  split_ifs at h with hq hb hlt
  · simp at h
  · subst hb
    obtain ⟨raw2, h2, h3⟩ := consRaw_ok _ _ _ _ h
    simp only [List.cons.injEq, true_and] at h2
    subst h2
    refine ⟨by decide, by decide, fun hne => absurd rfl hne, fun _ => ?_⟩
    rcases raw1 with _ | ⟨e, raw2⟩
    · simp only [List.nil_append, scanString] at h3
      rw [if_pos (by decide)] at h3
      obtain ⟨_, h4, _⟩ := consRaw_ok _ _ _ _ h3
      simp at h4
    · refine ⟨e, raw2, rfl, ?_⟩
      simp only [List.cons_append, scanString] at h3
      split_ifs at h3 with he hu
      · left
        obtain ⟨raw3, h4, h5⟩ := consRaw_ok _ _ _ _ h3
        simp only [List.cons.injEq, true_and] at h4
        subst h4
        exact ⟨he, rest, h5⟩
      · right
        obtain ⟨raw3, h4, h5⟩ := consRaw_ok _ _ _ _ h3
        simp only [List.cons.injEq, true_and] at h4
        subst h4
        obtain ⟨d1, r1, rfl, e1, s1⟩ := escU_step 4 _ _ h5
        simp only [show ¬ (4 ≤ 1) by decide, if_false, show 4 - 1 = 3 by rfl] at s1
        obtain ⟨d2, r2, rfl, e2, s2⟩ := escU_step 3 _ _ s1
        simp only [show ¬ (3 ≤ 1) by decide, if_false, show 3 - 1 = 2 by rfl] at s2
        obtain ⟨d3, r3, rfl, e3, s3⟩ := escU_step 2 _ _ s2
        simp only [show ¬ (2 ≤ 1) by decide, if_false, show 2 - 1 = 1 by rfl] at s3
        obtain ⟨d4, r4, rfl, e4, s4⟩ := escU_step 1 _ _ s3
        simp only [show (1 ≤ 1) by decide, if_true] at s4
        exact ⟨hu, d1, d2, d3, d4, r4, rfl, e1, e2, e3, e4, rest, s4⟩
  · obtain ⟨raw2, h2, h3⟩ := consRaw_ok _ _ _ _ h
    simp only [List.cons.injEq, true_and] at h2
    subst h2
    exact ⟨hq, by omega, fun _ => ⟨rest, h3⟩, fun hc => absurd hc hb⟩


theorem getu4_some (s : Bytes) (v : Nat) (h : getu4 s = some v) :
    ∃ d1 d2 d3 d4 t, s = 0x5C :: 0x75 :: d1 :: d2 :: d3 :: d4 :: t ∧ isHexDigit d1 = true ∧
      isHexDigit d2 = true ∧ isHexDigit d3 = true ∧ isHexDigit d4 = true := by
  rcases s with _ | ⟨c0, _ | ⟨c1, _ | ⟨d1, _ | ⟨d2, _ | ⟨d3, _ | ⟨d4, t⟩⟩⟩⟩⟩⟩
  · simp [getu4] at h
  · simp [getu4] at h
  · simp [getu4] at h
  · simp [getu4] at h
  · simp [getu4] at h
  · simp [getu4] at h
  · simp only [getu4] at h
    split_ifs at h with hc
    obtain ⟨rfl, rfl, e1, e2, e3, e4⟩ := hc
    exact ⟨d1, d2, d3, d4, t, rfl, e1, e2, e3, e4⟩

theorem unq_slash (g : Nat) (x : Bytes) :
    unquoteLoop (g + 1) ([0x5C, 0x2F] ++ x) = prepend [0x2F] (unquoteLoop g x) := by
  simp [unquoteLoop]

theorem unq_u_any (g d1 d2 d3 d4 : Nat) (x : Bytes) (e1 : isHexDigit d1 = true)
    (e2 : isHexDigit d2 = true) (e3 : isHexDigit d3 = true) (e4 : isHexDigit d4 = true) :
    unquoteLoop (g + 1) ([0x5C, 0x75, d1, d2, d3, d4] ++ x)
      = if utf16IsSurrogate (((hexVal d1 * 16 + hexVal d2) * 16 + hexVal d3) * 16 + hexVal d4)
            = true then
          if utf16DecodeRune (((hexVal d1 * 16 + hexVal d2) * 16 + hexVal d3) * 16 + hexVal d4)
              (getu4 x) ≠ RuneError then
            prepend (EncodeRune (utf16DecodeRune
                (((hexVal d1 * 16 + hexVal d2) * 16 + hexVal d3) * 16 + hexVal d4) (getu4 x)))
              (unquoteLoop g (x.drop 6))
          else prepend (EncodeRune RuneError) (unquoteLoop g x)
        else prepend (EncodeRune (((hexVal d1 * 16 + hexVal d2) * 16 + hexVal d3) * 16 + hexVal d4))
          (unquoteLoop g x) := by
  simp [unquoteLoop, getu4, e1, e2, e3, e4]

theorem unquoteLoop_scanned (n : Nat) : ∀ (raw : Bytes) (g : Nat), raw.length ≤ n →
    raw.length ≤ g → Scanned raw → ∃ t, unquoteLoop g raw = some t := by
  induction n with
  | zero =>
    intro raw g hn _ _
    cases raw with
    | nil => exact ⟨[], by simp [unquoteLoop]⟩
    | cons c r => simp at hn
  | succ n ih =>
    intro raw g hn hg hs
    rcases raw with _ | ⟨c, raw1⟩
    · exact ⟨[], by simp [unquoteLoop]⟩
    · obtain ⟨g, rfl⟩ : ∃ g', g = g' + 1 := ⟨g - 1, by simp at hg; omega⟩
      have hn1 : raw1.length ≤ n := by simpa using hn
      have hg1 : raw1.length ≤ g := by simpa using hg
      obtain ⟨hq, h20, hplain, hesc⟩ := scanned_cases c raw1 hs
      have some_prepend : ∀ (bs : Bytes) (x : Bytes), x.length ≤ n → x.length ≤ g → Scanned x →
          ∃ t, prepend bs (unquoteLoop g x) = some t := by
        intro bs x h1 h2 h3
        obtain ⟨t, ht⟩ := ih x g h1 h2 h3
        exact ⟨bs ++ t, by rw [ht]; rfl⟩
      by_cases hb : c = 0x5C
      · subst hb
        obtain ⟨e, raw2, rfl, hcase⟩ := hesc rfl
        have hn2 : raw2.length ≤ n := by simp at hn1; omega
        have hg2 : raw2.length ≤ g := by simp at hg1; omega
        rcases hcase with ⟨he, hs2⟩ | ⟨rfl, d1, d2, d3, d4, raw3, rfl, e1, e2, e3, e4, hs3⟩
        · by_cases hsl : e = 0x2F
          · subst hsl
            have := unq_slash g raw2
            simp only [List.cons_append, List.nil_append] at this
            rw [this]
            exact some_prepend _ raw2 hn2 hg2 hs2
          · have hv : ∃ v, (e = 0x22 ∧ v = e) ∨ (e = 0x5C ∧ v = e) ∨ (e = 0x62 ∧ v = 0x08)
                ∨ (e = 0x66 ∧ v = 0x0C) ∨ (e = 0x6E ∧ v = 0x0A) ∨ (e = 0x72 ∧ v = 0x0D)
                ∨ (e = 0x74 ∧ v = 0x09) := by
              rcases he with h | h | h | h | h | h | h | h
              · exact ⟨0x08, by omega⟩
              · exact ⟨0x0C, by omega⟩
              · exact ⟨0x0A, by omega⟩
              · exact ⟨0x0D, by omega⟩
              · exact ⟨0x09, by omega⟩
              · exact ⟨e, by omega⟩
              · exact absurd h hsl
              · exact ⟨e, by omega⟩
            obtain ⟨v, hv⟩ := hv
            have := unq_esc2 g e v raw2 hv
            simp only [List.cons_append, List.nil_append] at this
            rw [this]
            exact some_prepend _ raw2 hn2 hg2 hs2
        · have hn3 : raw3.length ≤ n := by simp at hn2; omega
          have hg3 : raw3.length ≤ g := by simp at hg2; omega
          have := unq_u_any g d1 d2 d3 d4 raw3 e1 e2 e3 e4
          simp only [List.cons_append, List.nil_append] at this
          rw [this]
          split_ifs with hsur hdec
          · -- a valid surrogate pair: six more bytes are consumed
            have hr1 : ∃ v, getu4 raw3 = some v := by
              rcases hg4 : getu4 raw3 with _ | v
              · rw [hg4] at hdec; simp [utf16DecodeRune] at hdec
              · exact ⟨v, rfl⟩
            obtain ⟨v, hv⟩ := hr1
            obtain ⟨k1, k2, k3, k4, raw4, rfl, f1, f2, f3, f4⟩ := getu4_some _ _ hv
            have hs4 : Scanned raw4 :=
              scanned_append [0x5C, 0x75, k1, k2, k3, k4] raw4
                (fun x => scan_u k1 k2 k3 k4 x f1 f2 f3 f4) hs3
            exact some_prepend _ raw4 (by simp at hn3; omega) (by simp at hg3; omega) hs4
          · exact some_prepend _ raw3 hn3 hg3 hs3
          · exact some_prepend _ raw3 hn3 hg3 hs3
      · have hs1 := hplain hb
        simp only [unquoteLoop]
        rw [if_neg hb, if_neg (by omega)]
        by_cases h80 : c < 0x80
        · rw [if_pos h80]
          exact some_prepend _ raw1 hn1 hg1 hs1
        · rw [if_neg h80]
          rcases DecodeRune_cases c raw1 (by omega) with hd | ⟨r, tail, hm, hd⟩
          · simp only [hd, List.drop_succ_cons, List.drop_zero]
            exact some_prepend _ raw1 hn1 hg1 hs1
          · have hdrop : (c :: raw1).drop (EncodeRune r).length = tail := by
              rw [hm.split]; simp
            have hlen : tail.length ≤ raw1.length := by
              have h1 := congrArg List.length hm.split
              have h2 := hm.len
              simp at h1; omega
            have hst : Scanned tail := by
              have hs' := hs
              rw [hm.split] at hs'
              exact scanned_append _ tail (fun x => scan_high _ x hm.high) hs'
            simp only [hd, hdrop]
            exact some_prepend _ tail (by omega) (by omega) hst

theorem unquoteBytes_scanned (s raw rest : Bytes)
    (h : scanString .inString s = .ok (raw, rest)) : ∃ t, unquoteBytes raw = some t :=
  unquoteLoop_scanned raw.length raw raw.length (le_refl _) (le_refl _) (scanned_of_scan s raw rest h)



theorem consRaw_not_phase (c : Nat) (x : Except Error (Bytes × Bytes))
    (h : x ≠ .error .phase) : consRaw c x ≠ .error .phase := by
  rcases x with e | ⟨raw, rest⟩
  · simpa [consRaw] using h
  · simp [consRaw]

theorem scanString_not_phase (s : Bytes) : ∀ st, scanString st s ≠ .error .phase := by
  induction s with
  | nil => intro st; cases st <;> simp [scanString]
  | cons c r ih =>
    intro st
    cases st <;> simp only [scanString] <;> split_ifs <;>
      first
      | exact consRaw_not_phase _ _ (ih _)
      | simp

theorem scanString_good (s : Bytes) (st : StrState) : Good s.length (scanString st s) := by
  rcases h : scanString st s with e | ⟨raw, rest⟩
  · intro he; subst he; exact scanString_not_phase s st h
  · exact scanString_length s st raw rest h

theorem scanNumber_not_phase (s : Bytes) : ∀ st, scanNumber st s ≠ .error .phase := by
  induction s with
  | nil => intro st; simp only [scanNumber]; split_ifs <;> simp
  | cons c r ih =>
    intro st
    cases st <;> simp only [scanNumber] <;> split_ifs <;>
      first
      | exact ih _
      | simp

theorem scanNumber_good (s : Bytes) (st : NumState) : GoodScan s.length (scanNumber st s) := by
  rcases h : scanNumber st s with e | rest
  · intro he; subst he; exact scanNumber_not_phase s st h
  · exact scanNumber_length s st rest h

theorem scanLiteral_not_phase (xs : Bytes) : ∀ s, scanLiteral xs s ≠ .error .phase := by
  induction xs with
  | nil => intro s; simp [scanLiteral]
  | cons x xs ih =>
    intro s
    cases s with
    | nil => simp [scanLiteral]
    | cons c r =>
      simp only [scanLiteral]
      split_ifs
      · exact ih _
      · simp

theorem scanLiteral_good (xs s : Bytes) : GoodScan s.length (scanLiteral xs s) := by
  rcases h : scanLiteral xs s with e | rest
  · intro he; subst he; exact scanLiteral_not_phase xs s h
  · exact scanLiteral_length xs s rest h

theorem good_of_scan {α : Type} (n m : Nat) (v : α) (x : Except Error Bytes) (h : GoodScan m x)
    (hm : m < n) :
    Good n (match x with
      | .error e => .error e
      | .ok rest => .ok (v, rest)) := by
  rcases x with e | rest
  · exact h
  · simp only [Good, GoodScan] at h ⊢; omega

theorem good_of_string (n : Nat) (r : Bytes) (hr : r.length < n) :
    Good n (match scanString .inString r with
      | .error e => .error e
      | .ok (raw, rest) =>
        match unquoteBytes raw with
        | none => .error .phase
        | some t => .ok (JValue.str t, rest)) := by
  have hg := scanString_good r .inString
  rcases h : scanString .inString r with e | ⟨raw, rest⟩
  · rw [h] at hg; exact hg
  · rw [h] at hg
    obtain ⟨t, ht⟩ := unquoteBytes_scanned r raw rest h
    simp only [ht, Good] at hg ⊢
    omega

theorem parse_good (f : Nat) : ∀ (depth : Nat) (s : Bytes),
    (2 * s.length + 1 ≤ f → Good s.length (parseValue f depth s)) ∧
    (2 * s.length + 1 ≤ f → Good s.length (parseMembers f depth s)) ∧
    (2 * s.length + 2 ≤ f → Good s.length (parseElements f depth s)) := by
  induction f with
  | zero => intro depth s; refine ⟨?_, ?_, ?_⟩ <;> intro h <;> omega
  | succ f ih =>
    intro depth s
    refine ⟨fun h => ?_, fun h => ?_, fun h => ?_⟩
    · simp only [parseValue]
      split
      · simp [Good]
      · rename_i c r hsk
        have hlen := skipSpace_length s
        rw [hsk] at hlen
        simp only [List.length_cons] at hlen
        split_ifs
        · simp [Good]
        · split
          · simp [Good]
          · rename_i c2 r2 hsk2
            have hlen2 := skipSpace_length r
            rw [hsk2] at hlen2
            simp only [List.length_cons] at hlen2
            split_ifs
            · simp only [Good]; omega
            · have := (ih (depth + 1) (c2 :: r2)).2.1 (by simp only [List.length_cons]; omega)
              split
              · rename_i e he; rw [he] at this; exact this
              · rename_i ms rest he; rw [he] at this
                simp only [Good, List.length_cons] at this ⊢; omega
        · simp [Good]
        · split
          · simp [Good]
          · rename_i c2 r2 hsk2
            have hlen2 := skipSpace_length r
            rw [hsk2] at hlen2
            simp only [List.length_cons] at hlen2
            split_ifs
            · simp only [Good]; omega
            · have := (ih (depth + 1) (c2 :: r2)).2.2 (by simp only [List.length_cons]; omega)
              split
              · rename_i e he; rw [he] at this; exact this
              · rename_i ms rest he; rw [he] at this
                simp only [Good, List.length_cons] at this ⊢; omega
        · exact good_of_string _ r (by omega)
        · exact good_of_scan _ _ _ _ (scanNumber_good r .neg) (by omega)
        · exact good_of_scan _ _ _ _ (scanNumber_good r .zero) (by omega)
        · exact good_of_scan _ _ _ _ (scanNumber_good r .one) (by omega)
        · exact good_of_scan _ _ _ _ (scanLiteral_good _ r) (by omega)
        · exact good_of_scan _ _ _ _ (scanLiteral_good _ r) (by omega)
        · exact good_of_scan _ _ _ _ (scanLiteral_good _ r) (by omega)
        · simp [Good]
    · simp only [parseMembers]
      split
      · simp [Good]
      · rename_i c r hsk
        have hlen := skipSpace_length s
        rw [hsk] at hlen
        simp only [List.length_cons] at hlen
        split_ifs
        · have hg := scanString_good r .inString
          split
          · rename_i e he; rw [he] at hg; exact hg
          · rename_i raw afterKey he
            rw [he] at hg
            simp only [Good] at hg
            obtain ⟨key, hkey⟩ := unquoteBytes_scanned r raw afterKey he
            simp only [hkey]
            split
            · simp [Good]
            · rename_i c1 r1 hsk1
              have hlen1 := skipSpace_length afterKey
              rw [hsk1] at hlen1
              simp only [List.length_cons] at hlen1
              split_ifs
              · have hv := (ih depth r1).1 (by omega)
                split
                · rename_i e hev; rw [hev] at hv; exact hv
                · rename_i v afterValue hev
                  rw [hev] at hv
                  simp only [Good] at hv
                  split
                  · simp [Good]
                  · rename_i c2 r2 hsk2
                    have hlen2 := skipSpace_length afterValue
                    rw [hsk2] at hlen2
                    simp only [List.length_cons] at hlen2
                    split_ifs
                    · have hm := (ih depth r2).2.1 (by omega)
                      split
                      · rename_i e hem; rw [hem] at hm; exact hm
                      · rename_i ms rest hem
                        rw [hem] at hm
                        simp only [Good] at hm ⊢; omega
                    · simp only [Good]; omega
                    · simp [Good]
              · simp [Good]
        · simp [Good]
    · simp only [parseElements]
      have hv := (ih depth s).1 (by omega)
      split
      · rename_i e hev; rw [hev] at hv; exact hv
      · rename_i v afterValue hev
        rw [hev] at hv
        simp only [Good] at hv
        split
        · simp [Good]
        · rename_i c2 r2 hsk2
          have hlen2 := skipSpace_length afterValue
          rw [hsk2] at hlen2
          simp only [List.length_cons] at hlen2
          split_ifs
          · have hm := (ih depth r2).2.2 (by omega)
            split
            · rename_i e hem; rw [hem] at hm; exact hm
            · rename_i xs rest hem
              rw [hem] at hm
              simp only [Good] at hm ⊢; omega
          · simp only [Good]; omega
          · simp [Good]

/-- The fuel of `readValue` is never used up: the decoder's result is decided by
the input alone. -/
theorem readValue_not_phase (data : Bytes) : readValue data ≠ .error .phase := by
  unfold readValue
  split
  · simp
  · have := (parse_good (2 * data.length + 1) 0 data).1 (le_refl _)
    split
    · rename_i e he; rw [he] at this
      simp only [Good] at this
      simpa using this
    · simp



theorem saveError_cases (d : DecodeState) (h : d.savedError = none ∨ d.savedError = some .unmarshalType) :
    (d.saveError .unmarshalType).savedError = some .unmarshalType := by
  unfold DecodeState.saveError
  rcases h with h | h <;> simp [h]

theorem storeMember_savedError (d : DecodeState) (m : Bytes × JValue)
    (h : d.savedError = none ∨ d.savedError = some .unmarshalType) :
    (storeMember d m).savedError = none ∨ (storeMember d m).savedError = some .unmarshalType := by
  have hs := saveError_cases d h
  unfold storeMember
  split
  · exact h
  all_goals
    first
    | (unfold storeString; split <;> first | exact h | exact Or.inr hs)
    | (unfold storeBool; split <;> first | exact h | exact Or.inr hs)

theorem foldl_storeMember_savedError (ms : List (Bytes × JValue)) : ∀ (d : DecodeState),
    (d.savedError = none ∨ d.savedError = some .unmarshalType) →
    (ms.foldl storeMember d).savedError = none ∨
      (ms.foldl storeMember d).savedError = some .unmarshalType := by
  induction ms with
  | nil => intro d h; exact h
  | cons m ms ih => intro d h; exact ih _ (storeMember_savedError d m h)

/-- The decoder on any input: the fuel of the scanner and of the unquoting loop
is never used up, so `DecodeUser` reports what `encoding/json` reports. -/
theorem DecodeUser_not_phase (data : Bytes) : (DecodeUser data).2 ≠ some .phase := by
  unfold DecodeUser Decoder_Decode
  have h1 := readValue_not_phase data
  rcases hr : readValue data with e | v
  · rw [hr] at h1
    have : e ≠ .phase := fun h => h1 (by rw [h])
    simpa using this
  · simp only
    have hu : (unmarshal v).2 = none ∨ (unmarshal v).2 = some .unmarshalType := by
      cases v <;> simp [unmarshal]
      exact foldl_storeMember_savedError _ _ (Or.inl rfl)
    rcases hv : unmarshal v with ⟨u, _ | e⟩
    · simp
    · rw [hv] at hu
      simp only [reduceCtorEq, Option.some.injEq, false_or] at hu
      subst hu
      simp

/-! ## The properties of the specification -/

set_option maxRecDepth 100000

theorem lookupKey_set (k v : Bytes) (st : List (Bytes × Bytes)) :
    lookupKey k (st.filter (fun kv => kv.1 ≠ k) ++ [(k, v)]) = some v := by
  induction st with
  | nil => simp [lookupKey]
  | cons kv st ih =>
    rcases kv with ⟨k1, v1⟩
    by_cases h : k1 = k
    · simp [List.filter, h]; simpa using ih
    · simp [List.filter, h, lookupKey]; simpa using ih

theorem mapCache_isKeyValueMap : IsKeyValueMap mapCache := by
  intro st k v
  refine ⟨rfl, ?_⟩
  simp only [mapCache, lookupKey_set]

theorem AddUser_eq {σ : Type} (c : Cache σ) (w : World) (st : σ) (username password : Bytes)
    (admin : Bool) :
    AddUser c w st username password admin
      = c.Set st username
          (User.Encode ⟨w.uuidNew, username, (w.GenerateFromPassword password 10).1, admin⟩).1 :=
  rfl

theorem GetUser_of_get {σ : Type} (c : Cache σ) (st : σ) (username bs : Bytes)
    (h : c.Get st username = (bs, none)) : GetUser c st username = DecodeUser bs := by
  unfold GetUser
  rw [h]
  simp only
  rcases hd : DecodeUser bs with ⟨u, _ | e⟩ <;> rfl

/-- C1 (as stated, refuted): a `User` whose `Username` is the single byte
`0xFF` is encoded without error, and the encoded bytes decode to a `User` whose
`Username` is the three bytes of U+FFFD, not to the `User` that was encoded. -/
theorem C1_roundtrip_fails_invalid_utf8 :
    (User.Encode ⟨[0x31], [0xFF], secret, false⟩).2 = none ∧
    DecodeUser (User.Encode ⟨[0x31], [0xFF], secret, false⟩).1
      = (some ⟨[0x31], [0xEF, 0xBF, 0xBD], secret, false⟩, none) ∧
    DecodeUser (User.Encode ⟨[0x31], [0xFF], secret, false⟩).1
      ≠ (some ⟨[0x31], [0xFF], secret, false⟩, none) := by
  decide

/-- C1 (amended): for every `User` whose `UUID`, `Username` and `Password` are
valid UTF-8, `Encode` returns a nil error and `DecodeUser` of the encoded bytes
returns a nil error and a `User` equal to the original in all four fields. -/
theorem C1_roundtrip_valid_utf8 (u : User) (h1 : utf8Valid u.UUID = true)
    (h2 : utf8Valid u.Username = true) (h3 : utf8Valid u.Password = true) :
    (u.Encode).2 = none ∧ DecodeUser (u.Encode).1 = (some u, none) := by
  have h := DecodeUser_Encode u
  refine ⟨h.1, ?_⟩
  rw [h.2, User.coerce, coerceUTF8_valid _ h1, coerceUTF8_valid _ h2, coerceUTF8_valid _ h3]

/-- C1 (amended), at the record of user `zoë<1>` with a quote, a newline and
U+2028 in its password. -/
theorem C1_roundtrip_valid_utf8_witness :
    utf8Valid [0x31] = true ∧
    utf8Valid [0x7A, 0x6F, 0xC3, 0xAB, 0x3C, 0x31, 0x3E] = true ∧
    utf8Valid [0x22, 0x0A, 0xE2, 0x80, 0xA8, 0x5C] = true ∧
    (User.Encode ⟨[0x31], [0x7A, 0x6F, 0xC3, 0xAB, 0x3C, 0x31, 0x3E],
        [0x22, 0x0A, 0xE2, 0x80, 0xA8, 0x5C], true⟩).2 = none ∧
    DecodeUser (User.Encode ⟨[0x31], [0x7A, 0x6F, 0xC3, 0xAB, 0x3C, 0x31, 0x3E],
        [0x22, 0x0A, 0xE2, 0x80, 0xA8, 0x5C], true⟩).1
      = (some ⟨[0x31], [0x7A, 0x6F, 0xC3, 0xAB, 0x3C, 0x31, 0x3E],
        [0x22, 0x0A, 0xE2, 0x80, 0xA8, 0x5C], true⟩, none) :=
  ⟨by decide, by decide, by decide,
    C1_roundtrip_valid_utf8 ⟨[0x31], [0x7A, 0x6F, 0xC3, 0xAB, 0x3C, 0x31, 0x3E],
      [0x22, 0x0A, 0xE2, 0x80, 0xA8, 0x5C], true⟩ (by decide) (by decide) (by decide)⟩

/-- C2 (the code at a failing input): with a hasher that refuses a 73-byte
password, `AddUser("alice", password, false)` on an empty key-value cache
returns a nil error and stores a record whose `Password` is empty, and the
following `GetUser("alice")` succeeds with that record. -/
theorem C2_hashing_failure_is_swallowed :
    ((worldOf [0x31]).GenerateFromPassword (List.replicate 73 0x61) 10).2 = some (.hashing 0) ∧
    (AddUser mapCache (worldOf [0x31]) [] alice (List.replicate 73 0x61) false).2 = none ∧
    GetUser mapCache (AddUser mapCache (worldOf [0x31]) [] alice (List.replicate 73 0x61) false).1
      alice = (some ⟨[0x31], alice, [], false⟩, none) := by
  decide



/-- C3 (the code at a failing input): after `AddUser` for `a`, `b` and `c` on an
empty key-value cache, `GetAllUsers` returns a nil error and three entries of
which only the first is a decoded record; the second and third are zero-valued
`User`s and do not carry the user names `b` and `c`. -/
theorem C3_only_first_value_decoded :
    GetAllUsers mapCache (addUsers threeCalls [])
      = .returned ([⟨[0x31], [0x61], (bcryptStandIn secret 10).1, false⟩, User.zero, User.zero],
          none) ∧
    (DecodeUser (User.Encode ⟨[0x32], [0x62], (bcryptStandIn secret 10).1, true⟩).1).1
      ≠ some User.zero := by
  decide

/-- C4 (the code at a failing input): with a valid record, a truncated one and a
second valid record in the cache, `GetAllUsers` returns after the first value:
the third value, which decodes to the record of `c`, is left as a zero-valued
`User`, and the error is nil. -/
theorem C4_values_after_first_not_decoded :
    (DecodeUser corruptRecord).2 = some .unexpectedEOF ∧
    DecodeUser (User.Encode ⟨[0x33], [0x63], secret, false⟩).1
      = (some ⟨[0x33], [0x63], secret, false⟩, none) ∧
    GetAllUsers mapCache
        [([0x61], (User.Encode ⟨[0x31], [0x61], secret, false⟩).1), ([0x62], corruptRecord),
          ([0x63], (User.Encode ⟨[0x33], [0x63], secret, false⟩).1)]
      = .returned ([⟨[0x31], [0x61], secret, false⟩, User.zero, User.zero], none) := by
  decide

/-- C5 (the code at a failing input): when the first stored value does not
decode, `DecodeUser` returns no `User` and `GetAllUsers` dereferences it: the
call panics instead of returning an error. -/
theorem C5_panics_on_undecodable_first_value :
    DecodeUser corruptRecord = (none, some .unexpectedEOF) ∧
    GetAllUsers mapCache [(alice, corruptRecord)] = .panicked := by
  decide

/-- C6 (as stated, refuted): on the key-value cache, `AddUser` with the user
name `0xFF` followed by `GetUser` with the same name returns a `User` whose
`Username` is the three bytes of U+FFFD, not the name that was added. -/
theorem C6_username_changed_invalid_utf8 :
    GetUser mapCache (AddUser mapCache (worldOf [0x31]) [] [0xFF] secret true).1 [0xFF]
      = (some ⟨[0x31], [0xEF, 0xBF, 0xBD], (bcryptStandIn secret 10).1, true⟩, none) ∧
    ([0xEF, 0xBF, 0xBD] : Bytes) ≠ [0xFF] := by
  decide

/-- C6 (amended): for every cache that behaves as a key-value map, every
user name that is valid UTF-8, every password and admin flag (and whatever the
hasher and the identifier generator return), `AddUser` returns a nil error and
the following `GetUser` with the same name returns a nil error and a `User`
whose `Username` is that name and whose `IsAdmin` is that flag. -/
theorem C6_add_then_get {σ : Type} (c : Cache σ) (hc : IsKeyValueMap c) (w : World) (st : σ)
    (username password : Bytes) (admin : Bool) (hu : utf8Valid username = true) :
    (AddUser c w st username password admin).2 = none ∧
    ∃ u, GetUser c (AddUser c w st username password admin).1 username = (some u, none) ∧
      u.Username = username ∧ u.IsAdmin = admin := by
  rw [AddUser_eq]
  obtain ⟨hset, hget⟩ := hc st username
    (User.Encode ⟨w.uuidNew, username, (w.GenerateFromPassword password 10).1, admin⟩).1
  refine ⟨hset, User.coerce ⟨w.uuidNew, username, (w.GenerateFromPassword password 10).1, admin⟩,
    ?_, ?_, ?_⟩
  · rw [GetUser_of_get c _ username _ hget]
    exact (DecodeUser_Encode _).2
  · exact coerceUTF8_valid _ hu
  · rfl

/-- C6 (amended), at `AddUser("alice", "secret", true)` on the empty key-value
cache. -/
theorem C6_add_then_get_witness :
    IsKeyValueMap mapCache ∧ utf8Valid alice = true ∧
    (AddUser mapCache (worldOf [0x31]) [] alice secret true).2 = none ∧
    ∃ u, GetUser mapCache (AddUser mapCache (worldOf [0x31]) [] alice secret true).1 alice
        = (some u, none) ∧ u.Username = alice ∧ u.IsAdmin = true :=
  ⟨mapCache_isKeyValueMap, by decide,
    C6_add_then_get mapCache mapCache_isKeyValueMap (worldOf [0x31]) [] alice secret true
      (by decide)⟩

/-- C7 (the code at a failing input): on a cache whose `GetAllValues` fails,
`GetAllUsers` returns an empty list and a nil error. -/
theorem C7_cache_error_dropped :
    ((failingCache (.cache 7)).GetAllValues ()).2 = some (.cache 7) ∧
    GetAllUsers (failingCache (.cache 7)) () = .returned ([], none) := by
  decide

/-- C8: for every cache and user name for which the cache's `Get` fails with
an error, `GetUser` returns that error and a nil `User`. -/
theorem C8_get_failure_propagated {σ : Type} (c : Cache σ) (st : σ) (username bs : Bytes)
    (e : Error) (h : c.Get st username = (bs, some e)) :
    GetUser c st username = (none, some e) := by
  unfold GetUser
  rw [h]

/-- C8, at `GetUser("alice")` on the empty key-value cache. -/
theorem C8_get_failure_propagated_witness :
    mapCache.Get [] alice = ([], some (.cache 0)) ∧
    GetUser mapCache [] alice = (none, some (.cache 0)) :=
  ⟨rfl, C8_get_failure_propagated mapCache [] alice [] (.cache 0) rfl⟩

/-- C9 (the code at a failing input): when the bytes stored under `alice` are
the JSON text `null`, `GetUser("alice")` returns a nil `User` together with a
nil error. -/
theorem C9_null_gives_nil_user_nil_error :
    GetUser mapCache [(alice, jsonNull)] alice = (none, none) := by
  decide



theorem AddUser_mapCache (c : AddUserCall) (st : List (Bytes × Bytes)) :
    AddUser mapCache c.w st c.username c.password c.admin
      = (st.filter (fun kv => kv.1 ≠ c.username) ++ [(c.username, (c.record.Encode).1)], none) :=
  rfl

theorem addUsers_append (pre : List AddUserCall) (c : AddUserCall) (st : List (Bytes × Bytes)) :
    addUsers (pre ++ [c]) st
      = (addUsers pre st).filter (fun kv => kv.1 ≠ c.username)
          ++ [(c.username, (c.record.Encode).1)] := by
  simp [addUsers, List.foldl_append, AddUser_mapCache]

/-- The invariant of the store, for every sequence of calls: keys are distinct
and every entry decodes to a `User` whose `Username` is the entry's key coerced
to valid UTF-8. -/
theorem addUsers_invariant (calls : List AddUserCall) :
    ((addUsers calls []).map Prod.fst).Nodup ∧
    ∀ kv ∈ addUsers calls [],
      ∃ u, DecodeUser kv.2 = (some u, none) ∧ u.Username = coerceUTF8 kv.1 := by
  induction calls using List.reverseRecOn with
  | nil => simp [addUsers]
  | append_singleton pre c ih =>
    obtain ⟨ihn, ihd⟩ := ih
    rw [addUsers_append]
    constructor
    · rw [List.map_append, List.nodup_append]
      refine ⟨?_, by simp, ?_⟩
      · exact (ihn.sublist ((List.filter_sublist _).map Prod.fst))
      · intro a ha hb
        simp only [List.map_cons, List.map_nil, List.mem_singleton] at hb
        subst hb
        simp at ha
    · intro kv hkv
      rcases List.mem_append.1 hkv with hk | hk
      · exact ihd kv (List.mem_filter.1 hk).1
      · simp only [List.mem_singleton] at hk
        subst hk
        exact ⟨c.record.coerce, (DecodeUser_Encode _).2, rfl⟩

/-- C10 (as stated, refuted): `AddUser` with the user name `0xFF` on the empty
key-value cache leaves an entry whose key is `0xFF` and whose value decodes to
a `User` with `Username` the three bytes of U+FFFD. -/
theorem C10_key_differs_invalid_utf8 :
    ∃ v, addUsers [⟨worldOf [0x31], [0xFF], secret, false⟩] [] = [([0xFF], v)] ∧
      DecodeUser v
        = (some ⟨[0x31], [0xEF, 0xBF, 0xBD], (bcryptStandIn secret 10).1, false⟩, none) ∧
      ([0xEF, 0xBF, 0xBD] : Bytes) ≠ [0xFF] :=
  ⟨_, rfl, by decide, by decide⟩

/-- C10 (amended): starting from the empty key-value cache, after every
sequence of `AddUser` calls (whatever their user names), the keys of the cache
are distinct and every entry whose key is valid UTF-8 decodes to a `User` whose
`Username` is the entry's key; and every `AddUser` call returns a nil error and
leaves the store it found with the entries under key = username removed and
exactly one entry appended, under key = username, holding the encoded
record. -/
theorem C10_key_is_username (calls : List AddUserCall) :
    ((addUsers calls []).map Prod.fst).Nodup ∧
    (∀ kv ∈ addUsers calls [], utf8Valid kv.1 = true →
      ∃ u, DecodeUser kv.2 = (some u, none) ∧ u.Username = kv.1) ∧
    ∀ (c : AddUserCall) (st : List (Bytes × Bytes)),
      AddUser mapCache c.w st c.username c.password c.admin
        = (st.filter (fun kv => kv.1 ≠ c.username) ++ [(c.username, (c.record.Encode).1)], none) := by
  refine ⟨(addUsers_invariant calls).1, ?_, AddUser_mapCache⟩
  intro kv hkv hvalid
  obtain ⟨u, hu, hname⟩ := (addUsers_invariant calls).2 kv hkv
  exact ⟨u, hu, by rw [hname, coerceUTF8_valid _ hvalid]⟩

/-- C10 (amended), at the calls for `a`, for the user name `0xFF` and for `c`:
the entries under `a` and `c` are in the store, their keys are valid UTF-8, and
each decodes to a `User` whose `Username` is its key. -/
theorem C10_key_is_username_witness :
    (([0x61], (User.Encode ⟨[0x31], [0x61], (bcryptStandIn secret 10).1, false⟩).1) ∈ addUsers mixedCalls [] ∧
      utf8Valid [0x61] = true ∧
      ∃ u, DecodeUser (User.Encode ⟨[0x31], [0x61], (bcryptStandIn secret 10).1, false⟩).1 = (some u, none) ∧
        u.Username = [0x61]) ∧
    (([0x63], (User.Encode ⟨[0x33], [0x63], (bcryptStandIn secret 10).1, false⟩).1) ∈ addUsers mixedCalls [] ∧
      utf8Valid [0x63] = true ∧
      ∃ u, DecodeUser (User.Encode ⟨[0x33], [0x63], (bcryptStandIn secret 10).1, false⟩).1 = (some u, none) ∧
        u.Username = [0x63]) :=
  ⟨⟨by decide, by decide,
      (C10_key_is_username mixedCalls).2.1
        ([0x61], (User.Encode ⟨[0x31], [0x61], (bcryptStandIn secret 10).1, false⟩).1) (by decide) (by decide)⟩,
    ⟨by decide, by decide,
      (C10_key_is_username mixedCalls).2.1
        ([0x63], (User.Encode ⟨[0x33], [0x63], (bcryptStandIn secret 10).1, false⟩).1) (by decide) (by decide)⟩⟩

end Hoverfly
